/-
  Verification development for the bq-accelerator-schema repository.

  Shallow embedding of the core modules the specification talks about:
    * src/src/app/inference/type_inference.py   (infer_type and helpers)
    * src/app/inference/numeric_inference.py    (infer_numeric_metadata)
    * src/app/governance/schema_registry.py     (hashing + registry state machine)
    * src/src/accelerator/outputs/schema_diff.py (SchemaDiff)
    * src/src/app/governance/drift_policy.py    (DriftPolicyEnforcer)
    * src/app/pipeline/naming.py                (normalize_identifier, apply_naming_normalization)

  Modelling conventions:
    * Python strings are Lean `String` over their character lists; the embedding
      treats identifiers and tokens as ASCII text (Python's unicode-aware
      `str.lower`, `\d`, `\s` and `int()` digit classes are modelled by their
      ASCII restrictions, which is the alphabet the program's documented inputs
      use).
    * Machine-independent pure functions are embedded as Lean functions;
      functions that raise are embedded with `Except`/`Option`.
    * `datetime.strptime` is embedded by the exact component regexes CPython
      builds for the directives used here (%Y %m %d %H %M %S, with literal
      separators and whitespace-runs for a literal blank), followed by the
      calendar validation `datetime(...)` performs.
    * Python's stable `sorted` is embedded with the stable `List.insertionSort`
      (all stable sorts agree extensionally).
    * SHA-256 over the deterministic JSON serialization is injective on the
      normalized payloads (modulo hash collisions, which the specification's
      "equivalently, the normalized serialized payloads" licenses us to ignore),
      so the structural hash is modelled as the normalized payload itself.
-/
import Mathlib

/-! ## Python string primitives -/

/-- Python whitespace characters stripped by `str.strip` (ASCII fragment). -/
def isPyWsC (c : Char) : Bool :=
  c = ' ' || c = '\t' || c = '\n' || c = '\r' || c = '\x0b' || c = '\x0c'

/-- `str.strip` on a character list. -/
def pyStripL (cs : List Char) : List Char :=
  ((cs.dropWhile isPyWsC).reverse.dropWhile isPyWsC).reverse

/-- `str.strip`. -/
def pyStrip (s : String) : String := ⟨pyStripL s.data⟩

/-- `str.lower` (ASCII fragment, as performed by `Char.toLower`). -/
def pyLower (s : String) : String := ⟨s.data.map Char.toLower⟩

/-- `str.upper` (ASCII fragment). -/
def pyUpper (s : String) : String := ⟨s.data.map Char.toUpper⟩

/-! ## type_inference.py : token predicates -/

/-- The boolean token vocabulary of `_is_boolean`. -/
def boolTokens : List String :=
  ["true", "false", "0", "1", "yes", "no", "y", "n", "t", "f"]

/-- `_is_boolean`: membership of the stripped, lowercased token in the vocabulary. -/
def _is_boolean (v : String) : Bool :=
  decide (pyLower (pyStrip v) ∈ boolTokens)

/-- Tail of a Python digit group: digits with single underscores strictly
between digits (`int()` / numeric literal grouping rule). -/
def digitsUAfter : List Char → Bool
  | [] => true
  | [c] => if c = '_' then false else c.isDigit
  | c :: c2 :: cs =>
    if c = '_' then c2.isDigit && digitsUAfter cs
    else c.isDigit && digitsUAfter (c2 :: cs)

/-- A nonempty Python digit group with underscore grouping. -/
def digitsU : List Char → Bool
  | [] => false
  | c :: cs => c.isDigit && digitsUAfter cs

/-- Drop one optional leading sign character. -/
def dropSign : List Char → List Char
  | [] => []
  | c :: cs => if c = '+' || c = '-' then cs else c :: cs

/-- Whether `int(s)` succeeds: strip, optional sign, nonempty digit group. -/
def pyIntOk (s : String) : Bool :=
  digitsU (dropSign (pyStripL s.data))

/-- `_is_integer`: `int(str(value).strip())` succeeds. -/
def _is_integer (v : String) : Bool := pyIntOk (pyStrip v)

/-- Plain nonempty digit run (regex `\d+`, no underscores). -/
def digitsPlain : List Char → Bool
  | [] => false
  | c :: cs => c.isDigit && cs.all Char.isDigit

/-- After the mandatory integer digits of `DECIMAL_PATTERN`: either the end
or a point followed by `\d+`. -/
def decAfterInt : List Char → Bool
  | [] => true
  | c :: cs => if c.isDigit then decAfterInt cs else c = '.' && digitsPlain cs

/-- Body of `DECIMAL_PATTERN` after the optional sign: `\d+(\.\d+)?`. -/
def decBody : List Char → Bool
  | [] => false
  | c :: cs => c.isDigit && decAfterInt cs

/-- `_is_decimal`: full match of `^[+-]?\d+(\.\d+)?$` on the stripped token
(`Decimal(...)` always succeeds on such strings). -/
def _is_decimal (v : String) : Bool :=
  decBody (dropSign (pyStripL (pyStrip v).data))

/-- Exponent part of a float literal after `e`/`E`: optional sign then a
digit group. -/
def floatExp (cs : List Char) : Bool := digitsU (dropSign cs)

/-- Digit group that may be terminated by an exponent marker. -/
def digitsUThenExp : List Char → Bool
  | [] => true
  | [c] =>
    if c = '_' then false
    else if c = 'e' || c = 'E' then floatExp []
    else c.isDigit
  | c :: c2 :: cs =>
    if c = '_' then c2.isDigit && digitsUThenExp cs
    else if c = 'e' || c = 'E' then floatExp (c2 :: cs)
    else c.isDigit && digitsUThenExp (c2 :: cs)

/-- Nonempty digit group optionally followed by an exponent. -/
def fracDigitsExp : List Char → Bool
  | [] => false
  | c :: cs => c.isDigit && digitsUThenExp cs

/-- After `digits.` in a float literal: end, exponent, or fraction digits. -/
def floatDotTail : List Char → Bool
  | [] => true
  | c :: cs =>
    if c = 'e' || c = 'E' then floatExp cs
    else fracDigitsExp (c :: cs)

/-- Inside the integer-digit part of a float literal. -/
def floatIntTail : List Char → Bool
  | [] => true
  | [c] =>
    if c = '_' then false
    else if c = '.' then floatDotTail []
    else if c = 'e' || c = 'E' then floatExp []
    else c.isDigit
  | c :: c2 :: cs =>
    if c = '_' then c2.isDigit && floatIntTail cs
    else if c = '.' then floatDotTail (c2 :: cs)
    else if c = 'e' || c = 'E' then floatExp (c2 :: cs)
    else c.isDigit && floatIntTail (c2 :: cs)

/-- Float literal body after the optional sign. -/
def floatBody : List Char → Bool
  | [] => false
  | c :: cs =>
    if c = '.' then fracDigitsExp cs
    else c.isDigit && floatIntTail cs

/-- Whether `float(s)` succeeds: strip, optional sign, then a special word
(`inf`, `infinity`, `nan`, case-insensitive) or a numeric literal. -/
def pyFloatOk (s : String) : Bool :=
  let cs := dropSign (pyStripL s.data)
  let low := cs.map Char.toLower
  if low = "inf".data || low = "infinity".data || low = "nan".data then true
  else floatBody cs

/-- `_is_float`. -/
def _is_float (v : String) : Bool := pyFloatOk (pyStrip v)

/-! ## type_inference.py : strptime-style parsing

Each component parser mirrors the CPython `_strptime` regex for the
directive; a two-character alternative is committed to whenever its own
characters match (the character after a two-character match is a digit,
which can never equal the literal separator the one-character fallback
would have to meet, so this commitment coincides with regex backtracking). -/

/-- Numeric value of an ASCII digit. -/
def d2v (c : Char) : Nat := c.toNat - 48

/-- `%Y`: exactly four digits. -/
def pYear : List Char → Option (Nat × List Char)
  | a :: b :: c :: d :: rest =>
    if a.isDigit ∧ b.isDigit ∧ c.isDigit ∧ d.isDigit then
      some (d2v a * 1000 + d2v b * 100 + d2v c * 10 + d2v d, rest)
    else none
  | _ => none

/-- `%m`: `1[0-2]|0[1-9]|[1-9]`. -/
def pMonth : List Char → Option (Nat × List Char)
  | a :: b :: rest =>
    if a = '1' ∧ (b = '0' ∨ b = '1' ∨ b = '2') then some (10 + d2v b, rest)
    else if a = '0' ∧ ('1' ≤ b ∧ b ≤ '9') then some (d2v b, rest)
    else if '1' ≤ a ∧ a ≤ '9' then some (d2v a, b :: rest)
    else none
  | [a] => if '1' ≤ a ∧ a ≤ '9' then some (d2v a, []) else none
  | [] => none

/-- `%d`: `3[01]|[12]\d|0[1-9]|[1-9]`. -/
def pDay : List Char → Option (Nat × List Char)
  | a :: b :: rest =>
    if a = '3' ∧ (b = '0' ∨ b = '1') then some (30 + d2v b, rest)
    else if (a = '1' ∨ a = '2') ∧ b.isDigit then some (d2v a * 10 + d2v b, rest)
    else if a = '0' ∧ ('1' ≤ b ∧ b ≤ '9') then some (d2v b, rest)
    else if '1' ≤ a ∧ a ≤ '9' then some (d2v a, b :: rest)
    else none
  | [a] => if '1' ≤ a ∧ a ≤ '9' then some (d2v a, []) else none
  | [] => none

/-- `%H`: `2[0-3]|[0-1]\d|\d`. -/
def pHour : List Char → Option (Nat × List Char)
  | a :: b :: rest =>
    if a = '2' ∧ ('0' ≤ b ∧ b ≤ '3') then some (20 + d2v b, rest)
    else if (a = '0' ∨ a = '1') ∧ b.isDigit then some (d2v a * 10 + d2v b, rest)
    else if a.isDigit then some (d2v a, b :: rest)
    else none
  | [a] => if a.isDigit then some (d2v a, []) else none
  | [] => none

/-- `%M` and `%S` (sub-60 forms): `[0-5]\d|\d`. -/
def pMinSec : List Char → Option (Nat × List Char)
  | a :: b :: rest =>
    if ('0' ≤ a ∧ a ≤ '5') ∧ b.isDigit then some (d2v a * 10 + d2v b, rest)
    else if a.isDigit then some (d2v a, b :: rest)
    else none
  | [a] => if a.isDigit then some (d2v a, []) else none
  | [] => none

/-- Consume one expected literal character. -/
def expectC (c : Char) : List Char → Option (List Char)
  | [] => none
  | x :: rest => if x = c then some rest else none

/-- A literal blank in a strptime format is compiled to `\s+`. -/
def pWsRun : List Char → Option (List Char)
  | [] => none
  | x :: rest => if isPyWsC x then some (rest.dropWhile isPyWsC) else none

/-- Gregorian leap year. -/
def isLeap (y : Nat) : Bool := y % 4 = 0 ∧ (y % 100 ≠ 0 ∨ y % 400 = 0)

/-- Length of a month. -/
def daysInMonth (y m : Nat) : Nat :=
  if m = 2 then (if isLeap y then 29 else 28)
  else if m = 4 ∨ m = 6 ∨ m = 9 ∨ m = 11 then 30
  else 31

/-- The validation `datetime(year, month, day, ...)` performs on a date. -/
def validYMD (y m d : Nat) : Bool :=
  1 ≤ y ∧ y ≤ 9999 ∧ 1 ≤ m ∧ m ≤ 12 ∧ 1 ≤ d ∧ d ≤ daysInMonth y m

/-- Full consumption for the naive-timestamp formats
`%Y-%m-%d %H:%M:%S` (blank separator) and `%Y-%m-%dT%H:%M:%S`. -/
def parseNaive (tSep : Bool) (cs : List Char) : Option (Nat × Nat × Nat) :=
  (pYear cs).bind fun yr =>
  (expectC '-' yr.2).bind fun r2 =>
  (pMonth r2).bind fun mo =>
  (expectC '-' mo.2).bind fun r4 =>
  (pDay r4).bind fun dy =>
  ((if tSep then expectC 'T' dy.2 else pWsRun dy.2)).bind fun r6 =>
  (pHour r6).bind fun _hh =>
  (expectC ':' _hh.2).bind fun r8 =>
  (pMinSec r8).bind fun mi =>
  (expectC ':' mi.2).bind fun r10 =>
  (pMinSec r10).bind fun ss =>
  if ss.2 = [] then some (yr.1, mo.1, dy.1) else none

/-- `_is_naive_timestamp`: the stripped value matches one of the two naive
formats and denotes a constructible date. -/
def _is_naive_timestamp (v : String) : Bool :=
  let cs := pyStripL v.data
  match parseNaive false cs with
  | some (y, m, d) => validYMD y m d
  | none =>
    match parseNaive true cs with
    | some (y, m, d) => validYMD y m d
    | none => false

/-- One `_is_date` layout with a given component order and separator. -/
def parseDateYMD (cs : List Char) : Bool :=
  match
    (pYear cs).bind fun yr =>
    (expectC '-' yr.2).bind fun r2 =>
    (pMonth r2).bind fun mo =>
    (expectC '-' mo.2).bind fun r4 =>
    (pDay r4).bind fun dy =>
    if dy.2 = [] then some (yr.1, mo.1, dy.1) else none
  with
  | some (y, m, d) => validYMD y m d
  | none => false

/-- `%d<sep>%m<sep>%Y`. -/
def parseDateDMY (sep : Char) (cs : List Char) : Bool :=
  match
    (pDay cs).bind fun dy =>
    (expectC sep dy.2).bind fun r2 =>
    (pMonth r2).bind fun mo =>
    (expectC sep mo.2).bind fun r4 =>
    (pYear r4).bind fun yr =>
    if yr.2 = [] then some (yr.1, mo.1, dy.1) else none
  with
  | some (y, m, d) => validYMD y m d
  | none => false

/-- `%m/%d/%Y`. -/
def parseDateMDY (cs : List Char) : Bool :=
  match
    (pMonth cs).bind fun mo =>
    (expectC '/' mo.2).bind fun r2 =>
    (pDay r2).bind fun dy =>
    (expectC '/' dy.2).bind fun r4 =>
    (pYear r4).bind fun yr =>
    if yr.2 = [] then some (yr.1, mo.1, dy.1) else none
  with
  | some (y, m, d) => validYMD y m d
  | none => false

/-- `_is_date`: one of `%Y-%m-%d`, `%d-%m-%Y`, `%m/%d/%Y`, `%d/%m/%Y`. -/
def _is_date (v : String) : Bool :=
  let cs := pyStripL v.data
  parseDateYMD cs || parseDateDMY '-' cs || parseDateMDY cs || parseDateDMY '/' cs

/-! ## type_inference.py : `_parse_timestamp_utc` (Python 3.10 `fromisoformat`)

`datetime.fromisoformat` (3.10 family, which the `replace("Z", "+00:00")`
shim targets) slices the string positionally: date `[0:10]`, an ignored
separator character at index 10, time from index 11, with the timezone split
at the first `-` (else first `+`) of the time part.  Two-character numeric
slices go through `int()`.  `.astimezone(timezone.utc)` on an aware result
is modelled with an explicit range check against the datetime min/max; on a
naive result it converts via the system timezone and is modelled as
succeeding (exact only away from the extreme datetime boundary, which no
other component can produce anyway). -/

/-- Value of a digit group with underscore grouping (accumulator form). -/
def digitsUValAux (acc : Nat) : List Char → Option Nat
  | [] => some acc
  | c :: cs =>
    if c = '_' then
      match cs with
      | [] => none
      | c2 :: cs2 =>
        if c2.isDigit then digitsUValAux (acc * 10 + d2v c2) cs2 else none
    else if c.isDigit then digitsUValAux (acc * 10 + d2v c) cs else none

/-- `int()` on a character slice: strip, optional sign, grouped digits. -/
def pyIntV (cs : List Char) : Option Int :=
  match pyStripL cs with
  | [] => none
  | c :: rest =>
    let sgn : List Char → Option Int := fun body =>
      match body with
      | [] => none
      | b :: bs =>
        if b.isDigit then (digitsUValAux (d2v b) bs).map (fun n => (n : Int))
        else none
    if c = '-' then (sgn rest).map (fun n => -n)
    else if c = '+' then sgn rest
    else sgn (c :: rest)

/-- `_parse_isoformat_date` on the first ten characters. -/
def isoDate (cs : List Char) : Option (Int × Int × Int) :=
  let d10 := cs.take 10
  (pyIntV (d10.take 4)).bind fun y =>
  if d10.get? 4 = some '-' ∧ d10.get? 7 = some '-' then
    (pyIntV ((d10.drop 5).take 2)).bind fun mo =>
    (pyIntV ((d10.drop 8).take 2)).map fun dy => (y, mo, dy)
  else none

/-- `_parse_hh_mm_ss_ff`: positional `HH[:MM[:SS[.fff[fff]]]]`. -/
def parseHMSF (cs : List Char) : Option (Int × Int × Int × Int) :=
  let n := cs.length
  let i2 : Nat → Option Int := fun p => pyIntV ((cs.drop p).take 2)
  if n = 2 then (i2 0).map (fun h => (h, 0, 0, 0))
  else if n = 5 then
    if cs.get? 2 = some ':' then
      (i2 0).bind fun h => (i2 3).map fun m => (h, m, 0, 0)
    else none
  else if n = 8 then
    if cs.get? 2 = some ':' ∧ cs.get? 5 = some ':' then
      (i2 0).bind fun h => (i2 3).bind fun m => (i2 6).map fun s => (h, m, s, 0)
    else none
  else if n = 12 ∨ n = 15 then
    if cs.get? 2 = some ':' ∧ cs.get? 5 = some ':' ∧ cs.get? 8 = some '.' then
      (i2 0).bind fun h => (i2 3).bind fun m => (i2 6).bind fun s =>
      (pyIntV (cs.drop 9)).map fun f => (h, m, s, if n = 12 then f * 1000 else f)
    else none
  else none

/-- `_parse_isoformat_time`: time components plus optional offset in
microseconds (split at the first `-`, else the first `+`). -/
def isoTime (tstr : List Char) : Option (Int × Int × Int × Int × Option Int) :=
  if tstr.length < 2 then none
  else
    match (tstr.findIdx? (· = '-')).orElse (fun _ => tstr.findIdx? (· = '+')) with
    | none => (parseHMSF tstr).map fun c => (c.1, c.2.1, c.2.2.1, c.2.2.2, none)
    | some i =>
      let timestr := tstr.take i
      let tzstr := tstr.drop (i + 1)
      let sign : Int := if tstr.get? i = some '-' then -1 else 1
      if tzstr.length = 5 ∨ tzstr.length = 8 ∨ tzstr.length = 15 then
        (parseHMSF timestr).bind fun c =>
        (parseHMSF tzstr).map fun z =>
          (c.1, c.2.1, c.2.2.1, c.2.2.2,
            some (sign * ((z.1 * 3600 + z.2.1 * 60 + z.2.2.1) * 1000000 + z.2.2.2)))
      else none

/-- `datetime.fromisoformat` (3.10): validated components plus optional
offset.  Validation is the one `datetime(...)`/`timezone(...)` performs. -/
def pyIso (cs : List Char) :
    Option (Nat × Nat × Nat × Nat × Nat × Nat × Nat × Option Int) :=
  (isoDate cs).bind fun d =>
  (if cs.length ≤ 10 then some ((0 : Int), (0 : Int), (0 : Int), (0 : Int), (none : Option Int))
   else
     let tstr := cs.drop 11
     if tstr = [] then some (0, 0, 0, 0, none)
     else (isoTime tstr).map fun t => (t.1, t.2.1, t.2.2.1, t.2.2.2.1, t.2.2.2.2)).bind
  fun t =>
  let y := d.1; let mo := d.2.1; let dy := d.2.2
  let h := t.1; let mi := t.2.1; let s := t.2.2.1; let f := t.2.2.2.1
  let tzOk : Bool :=
    match t.2.2.2.2 with
    | none => true
    | some off => decide (-86400000000 < off ∧ off < 86400000000)
  if 1 ≤ y ∧ y ≤ 9999 ∧ 1 ≤ mo ∧ mo ≤ 12 ∧ 1 ≤ dy ∧
     dy ≤ (daysInMonth y.toNat mo.toNat : Int) ∧
     0 ≤ h ∧ h ≤ 23 ∧ 0 ≤ mi ∧ mi ≤ 59 ∧ 0 ≤ s ∧ s ≤ 59 ∧
     0 ≤ f ∧ f ≤ 999999 ∧ tzOk = true then
    some (y.toNat, mo.toNat, dy.toNat, h.toNat, mi.toNat, s.toNat, f.toNat,
      t.2.2.2.2)
  else none

/-- Days in the years before year `y` (proleptic Gregorian, year 1 based). -/
def daysBeforeYear (y : Nat) : Nat :=
  (y - 1) * 365 + (y - 1) / 4 - (y - 1) / 100 + (y - 1) / 400

/-- Cumulative day count before month `m` in year `y`. -/
def daysBeforeMonth (y m : Nat) : Nat :=
  (match m with
   | 1 => 0 | 2 => 31 | 3 => 59 | 4 => 90 | 5 => 120 | 6 => 151
   | 7 => 181 | 8 => 212 | 9 => 243 | 10 => 273 | 11 => 304 | _ => 334)
  + (if 3 ≤ m ∧ isLeap y then 1 else 0)

/-- Microseconds since 0001-01-01T00:00:00 for a civil datetime. -/
def civilMicro (y mo dy h mi s f : Nat) : Int :=
  (((daysBeforeYear y + daysBeforeMonth y mo + (dy - 1)) * 86400
    + h * 3600 + mi * 60 + s : Nat) : Int) * 1000000 + f

/-- `datetime.max` in microseconds since 0001-01-01. -/
def maxCivilMicro : Int := civilMicro 9999 12 31 23 59 59 999999

/-- Parse plus `astimezone(timezone.utc)` success. -/
def isoAstimezoneOk (cs : List Char) : Bool :=
  match pyIso cs with
  | none => false
  | some (y, mo, dy, h, mi, s, f, off?) =>
    match off? with
    | none => true
    | some off =>
      0 ≤ civilMicro y mo dy h mi s f - off ∧
        civilMicro y mo dy h mi s f - off ≤ maxCivilMicro

/-- `value.replace("Z", "+00:00")`. -/
def zReplace (cs : List Char) : List Char :=
  cs.flatMap (fun c => if c = 'Z' then "+00:00".data else [c])

/-- `ISO_TZ_PATTERN` (`.*(Z|[+-]\d{2}:\d{2})$`) in the non-`Z` case:
the final six characters form an offset and `.*` (which cannot cross a
newline) reaches them. -/
def endsWithOff (cs : List Char) : Bool :=
  (match cs.reverse with
   | m2 :: m1 :: c :: h2 :: h1 :: sgn :: _ =>
     m2.isDigit ∧ m1.isDigit ∧ c = ':' ∧ h2.isDigit ∧ h1.isDigit ∧
       (sgn = '+' ∨ sgn = '-')
   | _ => false)
  && decide ('\n' ∉ cs.take (cs.length - 6))

/-- `_is_timestamp_utc` (`_parse_timestamp_utc value is not None`). -/
def _is_timestamp_utc (v : String) : Bool :=
  let cs := pyStripL v.data
  match cs.getLast? with
  | some 'Z' => isoAstimezoneOk (zReplace cs)
  | _ => if endsWithOff cs then isoAstimezoneOk cs else false

/-! ## type_inference.py : geography and date ranges -/

/-- `WKT_PREFIXES`. -/
def wktWords : List String :=
  ["POINT", "LINESTRING", "POLYGON", "MULTIPOINT", "MULTILINESTRING",
   "MULTIPOLYGON", "GEOMETRYCOLLECTION"]

/-- `_is_geography`: the uppercased stripped value starts with `WORD(`. -/
def _is_geography (v : String) : Bool :=
  let u := (pyUpper (pyStrip v)).data
  wktWords.any (fun p => (p.data ++ ['(']).isPrefixOf u)

/-- Exactly `n` ASCII digits. -/
def takeDigitsN : Nat → List Char → Option (List Char)
  | 0, cs => some cs
  | _ + 1, [] => none
  | n + 1, c :: cs => if c.isDigit then takeDigitsN n cs else none

/-- `\d{4}-\d{2}-\d{2}` inside `RANGE_DATE_PATTERN`. -/
def rdDate (cs : List Char) : Option (List Char) :=
  (takeDigitsN 4 cs).bind fun r1 =>
  (expectC '-' r1).bind fun r2 =>
  (takeDigitsN 2 r2).bind fun r3 =>
  (expectC '-' r3).bind fun r4 =>
  takeDigitsN 2 r4

/-- `_is_range_date`: full match of
`^[\[\(]\s*\d{4}-\d{2}-\d{2}\s*,\s*\d{4}-\d{2}-\d{2}\s*[\)\]]$`. -/
def _is_range_date (v : String) : Bool :=
  match pyStripL v.data with
  | [] => false
  | b :: rest =>
    (b = '[' ∨ b = '(') &&
    (match rdDate (rest.dropWhile isPyWsC) with
     | none => false
     | some r1 =>
       match expectC ',' (r1.dropWhile isPyWsC) with
       | none => false
       | some r2 =>
         match rdDate (r2.dropWhile isPyWsC) with
         | none => false
         | some r3 =>
           match r3.dropWhile isPyWsC with
           | [e] => e = ')' ∨ e = ']'
           | _ => false)

/-! ## type_inference.py : `is_ambiguous_boolean` and `infer_type` -/

/-- The null-marker tuple of the preprocessing filters (the `None` member
is not representable for string tokens and is subsumed by the others). -/
def nullMarkers : List String := ["", "NULL", "null", "Null"]

/-- The normalized sample `infer_type` works on: drop null markers, strip. -/
def normalizedTokens (values : List String) : List String :=
  (values.filter (fun v => !decide (v ∈ nullMarkers))).map pyStrip

/-- `is_ambiguous_boolean`: all surviving tokens normalize into `{0,1}`. -/
def is_ambiguous_boolean (values : List String) : Bool :=
  let normalized :=
    (values.filter (fun v => !decide (v ∈ nullMarkers))).map
      (fun v => pyLower (pyStrip v))
  if normalized = [] then false
  else normalized.all (fun v => decide (v = "0" ∨ v = "1"))

/-- The payload of `NaiveTimestampError`: the offending examples embedded in
the message (`bad_values[:3]`) and whether the list was truncated. -/
structure NaiveTimestampError where
  examples : List String
  truncated : Bool
  deriving Repr, DecidableEq

instance {ε α : Type} [DecidableEq ε] [DecidableEq α] : DecidableEq (Except ε α) :=
  fun x y =>
    match x, y with
    | .ok a, .ok b =>
      if h : a = b then .isTrue (by subst h; rfl)
      else .isFalse (fun heq => h (by cases heq; rfl))
    | .error a, .error b =>
      if h : a = b then .isTrue (by subst h; rfl)
      else .isFalse (fun heq => h (by cases heq; rfl))
    | .ok _, .error _ => .isFalse (fun heq => by cases heq)
    | .error _, .ok _ => .isFalse (fun heq => by cases heq)

/-- `infer_type`: the promotion chain
BOOLEAN → INTEGER → DECIMAL → FLOAT → TIMESTAMP → DATE → GEOGRAPHY →
RANGE_DATE → STRING, failing hard on naive timestamps. -/
def infer_type (values : List String) : Except NaiveTimestampError String :=
  if values = [] then .ok "STRING"
  else
    let vs := normalizedTokens values
    if vs = [] then .ok "STRING"
    else if vs.all _is_boolean then
      if vs.all (fun v =>
          decide (pyLower (pyStrip v) = "0" ∨ pyLower (pyStrip v) = "1")) then
        .ok "INTEGER"
      else .ok "BOOLEAN"
    else if vs.all _is_integer then .ok "INTEGER"
    else if vs.all _is_decimal then
      if vs.any (fun v => decide ('.' ∈ v.data)) then .ok "DECIMAL"
      else .ok "INTEGER"
    else if vs.all _is_float then .ok "FLOAT"
    else if vs.any _is_naive_timestamp then
      .error ⟨(vs.filter _is_naive_timestamp).take 3,
              decide (3 < (vs.filter _is_naive_timestamp).length)⟩
    else if vs.all _is_timestamp_utc then .ok "TIMESTAMP"
    else if vs.all _is_date then .ok "DATE"
    else if vs.all _is_geography then .ok "GEOGRAPHY"
    else if vs.all _is_range_date then .ok "RANGE_DATE"
    else .ok "STRING"

/-! ## numeric_inference.py : `infer_numeric_metadata`

`Decimal(str(v))` strips whitespace, removes every underscore, then
full-matches `[+-]?((?=\d|\.\d)\d*(\.\d*)?(E[+-]?\d+)?|Inf(inity)?|s?NaN\d*)`
case-insensitively.  `as_tuple()` of a finite value yields the coefficient
digits (leading zeros dropped, `[0]` when the coefficient is zero) and the
exponent `E - len(frac)`.  NaN and infinity parse successfully but carry a
string exponent, so the comparison `exponent < 0` then raises `TypeError`
(embedded as the `.error` result). -/

/-- A parsed `Decimal.as_tuple()` shape. -/
inductive PyDecTuple where
  | fin (sign : Bool) (digits : List Nat) (exp : Int)
  | special
  deriving Repr, DecidableEq

/-- Strip leading zero digits of a coefficient, keeping a final zero. -/
def stripZeros (ds : List Nat) : List Nat :=
  match ds.dropWhile (· = 0) with
  | [] => [0]
  | l => l

/-- Optional exponent tail `E[+-]?\d+` (case already lowered). -/
def decExpTail : List Char → Option Int
  | [] => some 0
  | c :: cs =>
    if c = 'e' then
      match dropSign cs with
      | [] => none
      | b :: bs =>
        if b.isDigit ∧ bs.all Char.isDigit then
          let v : Int := ((b :: bs).foldl (fun a d => a * 10 + d2v d) 0 : Nat)
          some (if cs.head? = some '-' then -v else v)
        else none
    else none

/-- Split an optional sign off the front of a numeric string. -/
def decSignSplit (cs : List Char) : Bool × List Char :=
  match cs with
  | [] => (false, [])
  | c :: rest =>
    if c = '-' then (true, rest)
    else if c = '+' then (false, rest)
    else (false, c :: rest)

/-- The `s?NaN\d*` body (case already lowered, after the optional `s`). -/
def decNanBody : List Char → Option PyDecTuple
  | 'n' :: 'a' :: 'n' :: ds => if ds.all Char.isDigit then some .special else none
  | _ => none

/-- The finite branch `(?=\d|\.\d)\d*(\.\d*)?(E[+-]?\d+)?` with the
`as_tuple` coefficient/exponent construction: fraction split after the
integer digits. -/
def decFracSplit : List Char → List Char × List Char
  | '.' :: rest => (rest.takeWhile Char.isDigit, rest.dropWhile Char.isDigit)
  | r => ([], r)

/-- The finite-branch splitting into integer digits, fraction digits and
the remainder. -/
def decFinBody (sign : Bool) (low : List Char) : Option PyDecTuple :=
  let intD := low.takeWhile Char.isDigit
  let fr := decFracSplit (low.dropWhile Char.isDigit)
  if intD = [] ∧ fr.1 = [] then none
  else
    match decExpTail fr.2 with
    | none => none
    | some e =>
      some (.fin sign (stripZeros ((intD ++ fr.1).map d2v))
        (e - (fr.1.length : Int)))

/-- `Decimal(s).as_tuple()` for a string token, `none` when construction
raises `InvalidOperation`/`ValueError`. -/
def pyDecimalTup (s : String) : Option PyDecTuple :=
  let cs := (pyStripL s.data).filter (fun c => !(c = '_'))
  let sb := decSignSplit cs
  let low := sb.2.map Char.toLower
  if low = "inf".data ∨ low = "infinity".data then some .special
  else
    match decNanBody low with
    | some t => some t
    | none =>
      match (match low with | 's' :: rest => decNanBody rest | _ => none) with
      | some t => some t
      | none => decFinBody sb.1 low

/-- The `TypeError` raised when a special value's string exponent meets
`exponent < 0`. -/
inductive NumErr where
  | typeError
  deriving Repr, DecidableEq

/-- `NumericMetadata` (canonical/field.py). -/
structure NumericMetadata where
  precision : Nat
  scale : Nat
  max_integer_digits : Int
  signed : Bool
  deriving Repr, DecidableEq

/-- The scan loop of `infer_numeric_metadata`, threading the running maxima. -/
def numLoop : List String → Nat → Nat → Except NumErr (Nat × Nat)
  | [], p, s => .ok (p, s)
  | v :: vs, p, s =>
    match pyDecimalTup v with
    | none => numLoop vs p s
    | some .special => .error .typeError
    | some (.fin _ ds e) =>
      numLoop vs (max p ds.length) (max s (if e < 0 then (-e).toNat else 0))

/-- `infer_numeric_metadata`. -/
def infer_numeric_metadata (values : List String) :
    Except NumErr (Option NumericMetadata) :=
  (numLoop values 0 0).map fun ps =>
    if ps.1 = 0 then none
    else some ⟨ps.1, ps.2, (ps.1 : Int) - (ps.2 : Int), true⟩

/-! ## Association lists with Python dict semantics

Python dicts are insertion-ordered; assigning to an existing key replaces
the value in place, a new key is appended. -/

/-- Dict assignment `d[k] = v`. -/
def pyInsert {κ α : Type} [DecidableEq κ] (k : κ) (v : α) :
    List (κ × α) → List (κ × α)
  | [] => [(k, v)]
  | (k2, v2) :: rest =>
    if k2 = k then (k2, v) :: rest else (k2, v2) :: pyInsert k v rest

/-- Dict lookup `d.get(k)`. -/
def alookup {κ α : Type} [DecidableEq κ] (l : List (κ × α)) (k : κ) : Option α :=
  match l with
  | [] => none
  | (k2, v) :: rest => if k2 = k then some v else alookup rest k

/-! ## The shared column shape (the diff engine's and registry's unit)

`mode` is optional only to mirror the registry's `field.get("mode",
"NULLABLE")`; the diff engine subscripts `field["mode"]` directly (the
specification's MappedColumn always carries a mode, and the missing-key
`KeyError` is outside the modelled fragment), so its comparisons are
embedded on the option values. -/

structure MappedColumn where
  name : String
  type : String
  mode : Option String
  description : Option String
  deriving Repr, DecidableEq

/-! ## schema_diff.py : `SchemaDiff` -/

/-- `METADATA_COLUMNS`: platform columns never diffed. -/
def METADATA_COLUMNS : List String :=
  ["ingestion_timestamp", "source_system", "batch_id", "record_hash",
   "is_deleted", "deleted_timestamp", "op_type", "op_ts"]

/-- The constructor's filtering of platform metadata columns. -/
def filteredCols (schema : List MappedColumn) : List MappedColumn :=
  schema.filter (fun f => !decide (f.name ∈ METADATA_COLUMNS))

/-- The constructor's name-keyed dict over the filtered columns. -/
def pyDictBy (l : List MappedColumn) : List (String × MappedColumn) :=
  l.foldl (fun d f => pyInsert f.name f d) []

/-- `_field_changed`. -/
def _field_changed (o n : MappedColumn) : Bool :=
  decide (o.type ≠ n.type ∨ o.mode ≠ n.mode ∨ o.description ≠ n.description)

/-- One entry of `modified_columns` (`{"column", "old", "new"}`). -/
structure ModEntry where
  column : String
  old : MappedColumn
  new : MappedColumn
  deriving Repr, DecidableEq

/-- One classified change record. -/
inductive ChangeEntry where
  | addRequiredColumn (column : String)
  | addNullableColumn (column : String)
  | removeColumn (column : String)
  | typeChange (column fromType toType : String)
  | nullableToRequired (column : String)
  | nonBreakingModification (column : String)
  deriving Repr, DecidableEq

/-- The report returned by `SchemaDiff.diff`. -/
structure DiffReport where
  added_columns : List MappedColumn
  removed_columns : List MappedColumn
  modified_columns : List ModEntry
  breaking_changes : List ChangeEntry
  non_breaking_changes : List ChangeEntry
  deriving Repr, DecidableEq

/-- Columns of the new dict absent from the old dict, in new-dict order. -/
def schemaDiffAdded (oldM newM : List (String × MappedColumn)) :
    List MappedColumn :=
  (newM.filter (fun p => (alookup oldM p.1).isNone)).map (·.2)

/-- Columns of the old dict absent from the new dict, in old-dict order. -/
def schemaDiffRemoved (oldM newM : List (String × MappedColumn)) :
    List MappedColumn :=
  (oldM.filter (fun p => (alookup newM p.1).isNone)).map (·.2)

/-- Matched columns whose field content changed, in new-dict order. -/
def schemaDiffModified (oldM newM : List (String × MappedColumn)) :
    List ModEntry :=
  newM.filterMap (fun p =>
    match alookup oldM p.1 with
    | none => none
    | some o => if _field_changed o p.2 then some ⟨p.1, o, p.2⟩ else none)

/-- `_classify_changes`: the appends of the three loops, in program order. -/
def _classify_changes (added removed : List MappedColumn)
    (modified : List ModEntry) : List ChangeEntry × List ChangeEntry :=
  let breaking :=
    (added.filter (fun c => decide (c.mode = some "REQUIRED"))).map
      (fun c => ChangeEntry.addRequiredColumn c.name)
    ++ removed.map (fun c => ChangeEntry.removeColumn c.name)
    ++ modified.filterMap (fun ch =>
        if ch.old.type ≠ ch.new.type then
          some (ChangeEntry.typeChange ch.new.name ch.old.type ch.new.type)
        else if ch.old.mode = some "NULLABLE" ∧ ch.new.mode = some "REQUIRED" then
          some (ChangeEntry.nullableToRequired ch.new.name)
        else none)
  let non_breaking :=
    (added.filter (fun c => !decide (c.mode = some "REQUIRED"))).map
      (fun c => ChangeEntry.addNullableColumn c.name)
    ++ modified.filterMap (fun ch =>
        if ch.old.type ≠ ch.new.type then none
        else if ch.old.mode = some "NULLABLE" ∧ ch.new.mode = some "REQUIRED" then
          none
        else some (ChangeEntry.nonBreakingModification ch.new.name))
  (breaking, non_breaking)

/-- `SchemaDiff(old, new).diff()`. -/
def SchemaDiff.diff (old new : List MappedColumn) : DiffReport :=
  let oldM := pyDictBy (filteredCols old)
  let newM := pyDictBy (filteredCols new)
  let added := schemaDiffAdded oldM newM
  let removed := schemaDiffRemoved oldM newM
  let modified := schemaDiffModified oldM newM
  let bnb := _classify_changes added removed modified
  ⟨added, removed, modified, bnb.1, bnb.2⟩

/-! ## schema_registry.py : structural hashing

`compute_schema_hash` json-serializes the normalized, name-sorted column
list and SHA-256 hashes it.  Serialization and hashing are injective on
the normalized payloads (the specification's "equivalently, the normalized
serialized payloads"), so the digest is modelled as the payload itself;
Python's stable `sorted(..., key=name)` is modelled with the stable
`List.insertionSort` on the name order. -/

/-- A normalized `{name, type, mode}` hash constituent. -/
structure NormCol where
  name : String
  type : String
  mode : String
  deriving Repr, DecidableEq

/-- Normalization of a single column: `mode` defaults to `NULLABLE`,
`description` is dropped. -/
def toNormCol (f : MappedColumn) : NormCol :=
  ⟨f.name, f.type, f.mode.getD "NULLABLE"⟩

/-- Lexicographic string order by code point (Python `<=` on `str`). -/
def strLeB : List Char → List Char → Bool
  | [], _ => true
  | _ :: _, [] => false
  | a :: as, b :: bs =>
    if a < b then true else if b < a then false else strLeB as bs

/-- The sort key relation of `sorted(..., key=lambda x: x["name"])`. -/
def nameLe (a b : NormCol) : Prop := strLeB a.name.data b.name.data = true

instance : DecidableRel nameLe := fun a b => by
  unfold nameLe; infer_instance

/-- `normalize_schema_for_hash`. -/
def normalize_schema_for_hash (schema : List MappedColumn) : List NormCol :=
  List.insertionSort nameLe (schema.map toNormCol)

/-- `compute_schema_hash`, modelled as the canonical payload. -/
def compute_schema_hash (schema : List MappedColumn) : List NormCol :=
  normalize_schema_for_hash schema

/-! ## schema_registry.py : the registry state machine

The JSON file behind the registry holds exactly `self.data` (`_load` and
`_save` round-trip it), so the persisted store is modelled as the state
itself and every operation threads it explicitly.  Version identifiers
`v1, v2, ...` are keyed by their numeric suffix.  Wall-clock calls
(`utc_now`) are modelled by an explicit `now` argument. -/

/-- Decimal digit list of a natural number (fuel-structured so terms
reduce). -/
def natReprAux : Nat → Nat → List Char
  | 0, _ => []
  | fuel + 1, n =>
    if n < 10 then [Nat.digitChar n]
    else natReprAux fuel (n / 10) ++ [Nat.digitChar (n % 10)]

/-- Decimal representation of a natural number (Python `str(n)` / f-string). -/
def natRepr (n : Nat) : String := ⟨natReprAux (n + 1) n⟩

/-- One element of a `change_summary`: the initial-version marker string or
a classified change record. -/
inductive SummaryItem where
  | text (s : String)
  | change (c : ChangeEntry)
  deriving Repr, DecidableEq

/-- A stored version record. -/
structure VersionRecord where
  version : Nat
  table_name : String
  schema_hash : List NormCol
  generated_at : Nat
  modified_at : Nat
  breaking_change : Bool
  change_summary : List SummaryItem
  schema : List MappedColumn
  deriving Repr, DecidableEq

/-- A per-entity registry entry. -/
structure EntityData where
  entity : String
  current_version : Nat
  versions : List (Nat × VersionRecord)
  deriving Repr, DecidableEq

/-- The registry's full persisted state. -/
abbrev RegistryState := List (String × EntityData)

/-- Registry errors: `ValueError` on the existence checks, `KeyError` on a
dangling `current_version` pointer. -/
inductive RegError where
  | valueError (entity : String)
  | keyError
  deriving Repr, DecidableEq

/-- `SchemaRegistry.get_entity`. -/
def get_entity (st : RegistryState) (entity : String) : Option EntityData :=
  alookup st entity

/-- `SchemaRegistry.get_current_version`. -/
def get_current_version (st : RegistryState) (entity : String) : Option Nat :=
  (alookup st entity).map (·.current_version)

/-- `SchemaRegistry.register_new_entity`. -/
def register_new_entity (st : RegistryState) (entity : String)
    (schema : List MappedColumn) (now : Nat) :
    Except RegError (RegistryState × Nat) :=
  if (alookup st entity).isSome then .error (.valueError entity)
  else
    let h := compute_schema_hash schema
    let rec1 : VersionRecord :=
      ⟨1, entity ++ "_v" ++ natRepr 1, h, now, now, false,
        [.text "initial version"], schema⟩
    .ok (pyInsert entity ⟨entity, 1, [(1, rec1)]⟩ st, 1)

/-- `SchemaRegistry.register_new_version`. -/
def register_new_version (st : RegistryState) (entity : String)
    (schema : List MappedColumn) (breaking : Bool)
    (change_summary : List SummaryItem) (now : Nat) :
    Except RegError (RegistryState × Nat) :=
  match alookup st entity with
  | none => .error (.valueError entity)
  | some ed =>
    match alookup ed.versions ed.current_version with
    | none => .error .keyError
    | some curRec =>
      let h := compute_schema_hash schema
      if h = curRec.schema_hash then .ok (st, ed.current_version)
      else
        let nv := ed.current_version + 1
        let newRec : VersionRecord :=
          ⟨nv, entity ++ "_v" ++ natRepr nv, h, now, now, breaking,
            change_summary, schema⟩
        .ok (pyInsert entity
          { ed with current_version := nv,
                    versions := pyInsert nv newRec ed.versions } st, nv)

/-- `SchemaRegistry.update_current_version_schema`. -/
def update_current_version_schema (st : RegistryState) (entity : String)
    (schema : List MappedColumn) (change_summary : List SummaryItem)
    (now : Nat) : Except RegError (RegistryState × Nat) :=
  match alookup st entity with
  | none => .error (.valueError entity)
  | some ed =>
    match alookup ed.versions ed.current_version with
    | none => .error .keyError
    | some vRec =>
      let h := compute_schema_hash schema
      if h = vRec.schema_hash then .ok (st, ed.current_version)
      else
        let vRec2 :=
          { vRec with schema := schema, schema_hash := h, modified_at := now,
                      change_summary := vRec.change_summary ++ change_summary }
        .ok (pyInsert entity
          { ed with versions := pyInsert ed.current_version vRec2 ed.versions }
          st, ed.current_version)

/-! ## drift_policy.py : `DriftPolicyEnforcer`

The enforcer's constructor admits exactly the three policy values, so the
policy is an enumeration.  `enforce` may mutate the registry and may raise;
it is embedded as returning the (possibly unchanged) state next to an
`Except` outcome, so a raise reports exactly the mutations performed
before it (none, in every raising path). -/

inductive DriftPolicy where
  | STRICT
  | WARN
  | AUTO
  deriving Repr, DecidableEq

/-- Errors out of `enforce`: the STRICT rejection carrying the breaking
list, or a propagated registry error. -/
inductive EnforceErr where
  | breakingChanges (changes : List ChangeEntry)
  | registry (e : RegError)
  deriving Repr, DecidableEq

/-- `DriftPolicyEnforcer.enforce`. -/
def DriftPolicyEnforcer.enforce (policy : DriftPolicy) (st : RegistryState)
    (entity : String) (diff_report : DiffReport)
    (new_schema : List MappedColumn) (now : Nat) :
    RegistryState × Except EnforceErr (String × Option Nat) :=
  match alookup st entity with
  | none =>
    match register_new_entity st entity new_schema now with
    | .ok (st2, v) => (st2, .ok (entity, some v))
    | .error e => (st, .error (.registry e))
  | some _ =>
    let breaking := diff_report.breaking_changes
    let non_breaking := diff_report.non_breaking_changes
    let current_version := get_current_version st entity
    if breaking = [] ∧ non_breaking = [] then (st, .ok (entity, current_version))
    else if breaking ≠ [] then
      match policy with
      | .STRICT => (st, .error (.breakingChanges breaking))
      | .WARN => (st, .ok (entity, current_version))
      | .AUTO =>
        match register_new_version st entity new_schema true
            (breaking.map .change ++ non_breaking.map .change) now with
        | .ok (st2, v) => (st2, .ok (entity, some v))
        | .error e => (st, .error (.registry e))
    else
      match update_current_version_schema st entity new_schema
          (non_breaking.map .change) now with
      | .ok (st2, v) => (st2, .ok (entity, some v))
      | .error e => (st, .error (.registry e))

/-! ## naming.py : identifier normalization

`is_bigquery_reserved_keyword` is imported from
`app.standards.bigquery_reserved_keywords`, a module that is not part of
the available sources; following the specification ("if the normalized
name collides with a reserved warehouse keyword, prefix it with the table
name") it is modelled as an arbitrary predicate parameter. -/

/-- The character class `[a-z0-9_]` kept by the substitution. -/
def allowedIdentC (c : Char) : Bool :=
  ('a' ≤ c ∧ c ≤ 'z') ∨ c.isDigit ∨ c = '_'

/-- Collapse runs of underscores (`re.sub(r"_+", "_", ...)`); `prev` is
whether the previous kept character was an underscore. -/
def collapseU (prev : Bool) : List Char → List Char
  | [] => []
  | c :: cs =>
    if c = '_' then
      (if prev then collapseU true cs else '_' :: collapseU true cs)
    else c :: collapseU false cs

/-- `normalize_identifier`; `none` models the uncaught `IndexError` that
`name[0]` raises when the stripped name is empty. -/
def normalize_identifier (s : String) : Option String :=
  let cs := (pyStripL s.data).map Char.toLower
  let cs := cs.map (fun c => if allowedIdentC c then c else '_')
  let cs := collapseU false cs
  match cs with
  | [] => none
  | c :: _ => if c.isDigit then some ⟨'_' :: cs⟩ else some ⟨cs⟩

/-- `build_dataset_name`. -/
def build_dataset_name (domain env zone : String) : Option String :=
  normalize_identifier (domain ++ "_" ++ env ++ "_" ++ zone)

/-- `build_table_name`. -/
def build_table_name (domain entity layer : String) : Option String :=
  normalize_identifier (domain ++ "_" ++ entity ++ "_" ++ layer)

/-! ## naming.py : `apply_naming_normalization`

Only the attributes the function reads or writes are modelled: a canonical
field participates with its `name` (its other attributes are untouched by
the code), a table with its `name` and `fields`, the dataset dict with the
four identity keys plus the `dataset_name` the function assigns, and the
two rename-mapping dicts.  The `Except` embeds raise-versus-return; the
in-place mutations a Python exception would leave behind are not
observable here. -/

/-- A canonical field, restricted to the attribute the normalizer touches. -/
structure CField where
  name : String
  deriving Repr, DecidableEq

/-- A canonical table, restricted to the attributes the normalizer touches. -/
structure CTable where
  name : String
  fields : List CField
  deriving Repr, DecidableEq

/-- The dataset-identity dict. -/
structure DatasetMeta where
  domain : Option String
  environment : Option String
  zone : Option String
  layer : Option String
  dataset_name : Option String
  deriving Repr, DecidableEq

/-- The canonical-schema attributes the normalizer touches. -/
structure CanonicalSchemaN where
  dataset : DatasetMeta
  tables : List CTable
  rename_tables : List (String × String)
  rename_columns : List (String × List (String × String))
  deriving Repr, DecidableEq

/-- `ValueError` on missing dataset identity; `IndexError` out of
`normalize_identifier`. -/
inductive NamingError where
  | valueError
  | indexError
  deriving Repr, DecidableEq

/-- The per-table column loop: threads `seen_columns` and the table-scoped
rename mapping, producing the renamed fields. -/
def colLoop (isReserved : String → Bool) (tableName : String)
    (seen : List (String × Nat)) (mapping : List (String × String)) :
    List CField →
    Option (List (String × Nat) × List (String × String) × List CField)
  | [] => some (seen, mapping, [])
  | f :: fs =>
    match normalize_identifier f.name with
    | none => none
    | some n0 =>
      let n1 := if isReserved n0 then tableName ++ "_" ++ n0 else n0
      let count := (alookup seen n1).getD 0 + 1
      let seen2 := pyInsert n1 count seen
      let final := if count = 1 then n1 else n1 ++ "_" ++ natRepr count
      let mapping2 := pyInsert f.name final mapping
      match colLoop isReserved tableName seen2 mapping2 fs with
      | none => none
      | some (s3, m3, fs3) => some (s3, m3, ⟨final⟩ :: fs3)

/-- The table loop: builds table names, threads the rename mappings. -/
def tableLoop (isReserved : String → Bool) (domain layer : String)
    (renT : List (String × String))
    (renC : List (String × List (String × String))) :
    List CTable →
    Option (List (String × String) × List (String × List (String × String))
      × List CTable)
  | [] => some (renT, renC, [])
  | t :: ts =>
    match build_table_name domain t.name layer with
    | none => none
    | some tn =>
      let renT2 := pyInsert t.name tn renT
      match colLoop isReserved tn [] [] t.fields with
      | none => none
      | some r =>
        let renC2 := pyInsert tn r.2.1 renC
        match tableLoop isReserved domain layer renT2 renC2 ts with
        | none => none
        | some acc => some (acc.1, acc.2.1, ⟨tn, r.2.2⟩ :: acc.2.2)

/-- `apply_naming_normalization`. -/
def apply_naming_normalization (isReserved : String → Bool)
    (schema : CanonicalSchemaN) : Except NamingError CanonicalSchemaN :=
  match schema.dataset.domain, schema.dataset.environment,
        schema.dataset.zone, schema.dataset.layer with
  | some d, some e, some z, some l =>
    if d ≠ "" ∧ e ≠ "" ∧ z ≠ "" ∧ l ≠ "" then
      match build_dataset_name d e z with
      | none => .error .indexError
      | some dn =>
        match tableLoop isReserved d l [] [] schema.tables with
        | none => .error .indexError
        | some acc =>
          .ok { schema with
                  dataset := { schema.dataset with dataset_name := some dn },
                  tables := acc.2.2,
                  rename_tables := acc.1,
                  rename_columns := acc.2.1 }
    else .error .valueError
  | _, _, _, _ => .error .valueError

/-! ## Specification-side definitions used by the theorem statements -/

/-- Column lookup as the diff engine performs it: metadata filtering, then
the name-keyed dict. -/
def lookupCol (schema : List MappedColumn) (n : String) : Option MappedColumn :=
  alookup (pyDictBy (filteredCols schema)) n

/-- The name given to the occurrence number `n` of a normalized column
name (`n = 1` keeps the name, later occurrences get `_n`). -/
def mkDedup (k : String) (n : Nat) : String :=
  if n = 1 then k else k ++ "_" ++ natRepr n

/-- Deduplicated names of a key list, counting occurrences after the
`done` prefix, in source order. -/
def dedupWith (done : List String) : List String → List String
  | [] => []
  | k :: ks => mkDedup k (done.count k + 1) :: dedupWith (done ++ [k]) ks

/-- The key a raw column name contributes to deduplication: normalization
followed by reserved-keyword resolution. -/
def colKey (isReserved : String → Bool) (tableName raw : String) :
    Option String :=
  (normalize_identifier raw).map
    (fun n => if isReserved n then tableName ++ "_" ++ n else n)

/-- Whether a name already ends in an underscore followed by a nonempty
digit run — the shape the deduplication suffixes produce. -/
def hasNumSuffix (s : String) : Bool :=
  let r := s.data.reverse
  decide (r.takeWhile Char.isDigit ≠ []) &&
    decide ((r.dropWhile Char.isDigit).head? = some '_')

/-- The breaking-change classification condition of the diff engine, per
change-record shape. -/
def breakCond (old new : List MappedColumn) : ChangeEntry → Prop
  | .addRequiredColumn n =>
    ∃ f, lookupCol new n = some f ∧ lookupCol old n = none ∧
      f.mode = some "REQUIRED"
  | .addNullableColumn _ => False
  | .removeColumn n =>
    ∃ f, lookupCol old n = some f ∧ lookupCol new n = none
  | .typeChange n fr toT =>
    ∃ o f, lookupCol old n = some o ∧ lookupCol new n = some f ∧
      o.type = fr ∧ f.type = toT ∧ fr ≠ toT
  | .nullableToRequired n =>
    ∃ o f, lookupCol old n = some o ∧ lookupCol new n = some f ∧
      o.type = f.type ∧ o.mode = some "NULLABLE" ∧ f.mode = some "REQUIRED"
  | .nonBreakingModification _ => False

/-- The non-breaking classification condition of the diff engine. -/
def nonBreakCond (old new : List MappedColumn) : ChangeEntry → Prop
  | .addRequiredColumn _ => False
  | .addNullableColumn n =>
    ∃ f, lookupCol new n = some f ∧ lookupCol old n = none ∧
      f.mode ≠ some "REQUIRED"
  | .removeColumn _ => False
  | .typeChange _ _ _ => False
  | .nullableToRequired _ => False
  | .nonBreakingModification n =>
    ∃ o f, lookupCol old n = some o ∧ lookupCol new n = some f ∧
      o.type = f.type ∧
      ¬ (o.mode = some "NULLABLE" ∧ f.mode = some "REQUIRED") ∧
      (o.mode ≠ f.mode ∨ o.description ≠ f.description)

/-- The concrete registry run used to refute global hash distinctness:
schema A, then B, then A again. -/
def c2schA : List MappedColumn := [⟨"amount", "STRING", none, none⟩]

/-- The middle schema of the refuting run. -/
def c2schB : List MappedColumn := [⟨"amount", "INTEGER", none, none⟩]

/-- The three-call run `register_new_entity; register_new_version (B);
register_new_version (A)`. -/
def c2run : Except RegError (RegistryState × Nat) :=
  (register_new_entity [] "orders" c2schA 0).bind fun r1 =>
  (register_new_version r1.1 "orders" c2schB true [] 1).bind fun r2 =>
  register_new_version r2.1 "orders" c2schA false [] 2

/-- The state the refuting run ends in. -/
def c2st : RegistryState :=
  match c2run with
  | .ok (st, _) => st
  | .error _ => []

/-! ## Association-list lemmas -/


theorem alookup_pyInsert_self {κ α : Type} [DecidableEq κ] (k : κ) (v : α)
    (l : List (κ × α)) : alookup (pyInsert k v l) k = some v := by
  induction l with
  | nil => simp [pyInsert, alookup]
  | cons p rest ih =>
    obtain ⟨k2, v2⟩ := p
    by_cases h : k2 = k
    · subst h
      simp [pyInsert, alookup]
    · simp [pyInsert, alookup, h, ih]

theorem alookup_pyInsert_ne {κ α : Type} [DecidableEq κ] (k k' : κ) (v : α)
    (l : List (κ × α)) (h : k' ≠ k) :
    alookup (pyInsert k v l) k' = alookup l k' := by
  induction l with
  | nil => simp [pyInsert, alookup, h.symm]
  | cons p rest ih =>
    obtain ⟨k2, v2⟩ := p
    by_cases h2 : k2 = k
    · subst h2
      simp [pyInsert, alookup, h.symm]
    · by_cases h3 : k2 = k'
      · subst h3
        simp [pyInsert, alookup, h2]
      · simp [pyInsert, alookup, h2, h3, ih]

theorem mem_pyInsert {κ α : Type} [DecidableEq κ] {k : κ} {v : α}
    {l : List (κ × α)} {p : κ × α} (h : p ∈ pyInsert k v l) :
    p = (k, v) ∨ p ∈ l := by
  induction l with
  | nil => simpa [pyInsert] using h
  | cons q rest ih =>
    obtain ⟨k2, v2⟩ := q
    by_cases h2 : k2 = k
    · subst h2
      rcases (by simpa [pyInsert] using h : p = (k2, v) ∨ p ∈ rest) with h3 | h3
      · exact Or.inl h3
      · exact Or.inr (List.mem_cons_of_mem _ h3)
    · rcases (by simpa [pyInsert, h2] using h :
          p = (k2, v2) ∨ p ∈ pyInsert k v rest) with h3 | h3
      · exact Or.inr (by simp [h3])
      · rcases ih h3 with h4 | h4
        · exact Or.inl h4
        · exact Or.inr (List.mem_cons_of_mem _ h4)

theorem keys_pyInsert {κ α : Type} [DecidableEq κ] (k : κ) (v : α)
    (l : List (κ × α)) :
    (pyInsert k v l).map Prod.fst = l.map Prod.fst
      ∨ (pyInsert k v l).map Prod.fst = l.map Prod.fst ++ [k] := by
  induction l with
  | nil => simp [pyInsert]
  | cons p rest ih =>
    obtain ⟨k2, v2⟩ := p
    by_cases h : k2 = k
    · simp [pyInsert, h]
    · rcases ih with h2 | h2
      · exact Or.inl (by simp [pyInsert, h, h2])
      · exact Or.inr (by simp [pyInsert, h, h2])

theorem nodupKeys_pyInsert {κ α : Type} [DecidableEq κ] (k : κ) (v : α)
    (l : List (κ × α)) (h : (l.map Prod.fst).Nodup) :
    ((pyInsert k v l).map Prod.fst).Nodup := by
  induction l with
  | nil => simp [pyInsert]
  | cons p rest ih =>
    obtain ⟨k2, v2⟩ := p
    simp only [List.map_cons, List.nodup_cons] at h
    by_cases h2 : k2 = k
    · subst h2
      simpa [pyInsert, List.nodup_cons] using h
    · simp only [pyInsert, if_neg h2, List.map_cons, List.nodup_cons]
      refine ⟨fun hmem => ?_, ih h.2⟩
      rcases keys_pyInsert k v rest with h3 | h3
      · exact h.1 (h3 ▸ hmem)
      · rw [h3] at hmem
        rcases List.mem_append.mp hmem with h4 | h4
        · exact h.1 h4
        · exact h2 (by simpa using h4)

theorem alookup_eq_some_of_mem {κ α : Type} [DecidableEq κ]
    {l : List (κ × α)} {k : κ} {v : α} (hnd : (l.map Prod.fst).Nodup)
    (h : (k, v) ∈ l) : alookup l k = some v := by
  induction l with
  | nil => simp at h
  | cons p rest ih =>
    obtain ⟨k2, v2⟩ := p
    simp only [List.map_cons, List.nodup_cons] at hnd
    rcases List.mem_cons.mp h with h2 | h2
    · have hk : k2 = k := (Prod.ext_iff.mp h2.symm).1
      have hv : v2 = v := (Prod.ext_iff.mp h2.symm).2
      simp [alookup, hk, hv]
    · have hk : k2 ≠ k := by
        intro hkk
        subst hkk
        exact hnd.1 (by simpa using List.mem_map_of_mem Prod.fst h2)
      simp [alookup, hk, ih hnd.2 h2]

theorem mem_of_alookup_eq_some {κ α : Type} [DecidableEq κ]
    {l : List (κ × α)} {k : κ} {v : α} (h : alookup l k = some v) :
    (k, v) ∈ l := by
  induction l with
  | nil => simp [alookup] at h
  | cons p rest ih =>
    obtain ⟨k2, v2⟩ := p
    by_cases h2 : k2 = k
    · subst h2
      simp [alookup] at h
      subst h
      exact List.mem_cons_self _ _
    · simp only [alookup, if_neg h2] at h
      exact List.mem_cons_of_mem _ (ih h)

theorem nodupKeys_pyDictBy_fold (l : List MappedColumn) :
    ∀ d : List (String × MappedColumn), (d.map Prod.fst).Nodup →
      ((l.foldl (fun d f => pyInsert f.name f d) d).map Prod.fst).Nodup := by
  induction l with
  | nil => intro d hd; simpa using hd
  | cons f rest ih =>
    intro d hd
    rw [List.foldl_cons]
    exact ih _ (nodupKeys_pyInsert _ _ _ hd)

theorem nodupKeys_pyDictBy (l : List MappedColumn) :
    ((pyDictBy l).map Prod.fst).Nodup :=
  nodupKeys_pyDictBy_fold l [] (by simp)

theorem name_eq_key_fold (l : List MappedColumn) :
    ∀ d : List (String × MappedColumn),
      (∀ q ∈ d, (q : String × MappedColumn).2.name = q.1) →
      ∀ q ∈ l.foldl (fun d f => pyInsert f.name f d) d,
        (q : String × MappedColumn).2.name = q.1 := by
  induction l with
  | nil =>
    intro d hd q hq
    rw [List.foldl_nil] at hq
    exact hd q hq
  | cons f rest ih =>
    intro d hd q hq
    rw [List.foldl_cons] at hq
    refine ih _ (fun r hr => ?_) q hq
    rcases mem_pyInsert hr with h2 | h2
    · simp [h2]
    · exact hd r h2

theorem name_eq_key_pyDictBy {l : List MappedColumn}
    {p : String × MappedColumn} (h : p ∈ pyDictBy l) : p.2.name = p.1 :=
  name_eq_key_fold l [] (by simp) p h
example : pyDecimalTup "0.05" = some (.fin false [5] (-2)) := by decide
example : pyDecimalTup "nan_12" = some .special := by decide
example : pyDecimalTup "E5" = none := by decide
example : pyDecimalTup "1.2e+4_0" = some (.fin false [1,2] 39) := by decide
example : infer_numeric_metadata ["0.05"] = .ok (some ⟨1, 2, -1, true⟩) := by decide

theorem stripZeros_ne_nil (l : List Nat) : stripZeros l ≠ [] := by
  unfold stripZeros
  cases h : l.dropWhile (· = 0) with
  | nil => simp
  | cons a r => simp

theorem decFinBody_digits {sg0 sg : Bool} {low : List Char}
    {ds : List Nat} {e : Int}
    (h : decFinBody sg0 low = some (.fin sg ds e)) : ds ≠ [] := by
  simp only [decFinBody] at h
  split at h
  · simp at h
  · split at h
    · simp at h
    · simp only [Option.some.injEq, PyDecTuple.fin.injEq] at h
      obtain ⟨-, h2, -⟩ := h
      exact h2 ▸ stripZeros_ne_nil _

theorem decNanBody_special {low : List Char} {t : PyDecTuple}
    (h : decNanBody low = some t) : t = .special := by
  unfold decNanBody at h
  split at h
  · split at h
    · simp only [Option.some.injEq] at h
      exact h.symm
    · simp at h
  · simp at h

theorem pyDecimalTup_fin_digits_ne_nil {v : String} {sg : Bool}
    {ds : List Nat} {e : Int} (h : pyDecimalTup v = some (.fin sg ds e)) :
    ds ≠ [] := by
  simp only [pyDecimalTup] at h
  split at h
  · simp at h
  · split at h
    · rename_i t ht
      simp only [Option.some.injEq] at h
      rw [h] at ht
      have := decNanBody_special ht
      simp at this
    · split at h
      · rename_i t ht
        simp only [Option.some.injEq] at h
        rw [h] at ht
        split at ht
        · have := decNanBody_special ht
          simp at this
        · simp at ht
      · exact decFinBody_digits h

theorem numLoop_mono {vs : List String} {p s : Nat} {r : Nat × Nat}
    (h : numLoop vs p s = .ok r) : p ≤ r.1 := by
  induction vs generalizing p s with
  | nil =>
    simp only [numLoop, Except.ok.injEq] at h
    simp [← h]
  | cons v rest ih =>
    simp only [numLoop] at h
    split at h
    · exact ih h
    · exact absurd h (by simp)
    · exact le_trans (le_max_left _ _) (ih h)

theorem numLoop_allNone {vs : List String} (p s : Nat)
    (h : ∀ v ∈ vs, pyDecimalTup v = none) : numLoop vs p s = .ok (p, s) := by
  induction vs generalizing p s with
  | nil => rfl
  | cons v rest ih =>
    have hv := h v (by simp)
    simp only [numLoop, hv]
    exact ih _ _ (fun w hw => h w (by simp [hw]))

theorem numLoop_pos {vs : List String} {v : String} {t : PyDecTuple}
    (hv : v ∈ vs) (ht : pyDecimalTup v = some t) {p s : Nat} {r : Nat × Nat}
    (h : numLoop vs p s = .ok r) : 1 ≤ r.1 := by
  induction vs generalizing p s with
  | nil => simp at hv
  | cons w rest ih =>
    rcases List.mem_cons.mp hv with h2 | h2
    · subst h2
      rw [numLoop, ht] at h
      match t, h with
      | .special, h => exact absurd h (by simp)
      | .fin sg ds e, h =>
        have hds : ds ≠ [] := pyDecimalTup_fin_digits_ne_nil ht
        have h1 : 1 ≤ max p ds.length :=
          le_trans (Nat.one_le_iff_ne_zero.mpr (by simpa using hds))
            (le_max_right _ _)
        exact le_trans h1 (numLoop_mono h)
    · simp only [numLoop] at h
      split at h
      · exact ih h2 h
      · exact absurd h (by simp)
      · exact ih h2 h

/-- C9 (amended): every metadata record `infer_numeric_metadata` returns has
positive precision, non-negative scale, and `max_integer_digits` equal to
`precision - scale` as a (possibly negative) integer — the invariant
`scale ≤ precision` does not hold in general — and, when the function
returns rather than raising on a special token, it returns `None` exactly
when no input parses as a decimal. -/
theorem infer_numeric_metadata_spec (values : List String) :
    (∀ md, infer_numeric_metadata values = .ok (some md) →
      1 ≤ md.precision ∧
      md.max_integer_digits = (md.precision : Int) - (md.scale : Int) ∧
      md.signed = true)
    ∧ (infer_numeric_metadata values = .ok none ↔
        ∀ v ∈ values, pyDecimalTup v = none) := by
  constructor
  · intro md hmd
    unfold infer_numeric_metadata at hmd
    cases hloop : numLoop values 0 0 with
    | error e => rw [hloop] at hmd; exact absurd hmd (by simp [Except.map])
    | ok ps =>
      rw [hloop] at hmd
      simp only [Except.map, Except.ok.injEq] at hmd
      split at hmd
      · exact absurd hmd (by simp)
      · rename_i hp
        simp only [Option.some.injEq] at hmd
        subst hmd
        exact ⟨Nat.one_le_iff_ne_zero.mpr hp, rfl, rfl⟩
  · constructor
    · intro hok v hv
      unfold infer_numeric_metadata at hok
      cases hloop : numLoop values 0 0 with
      | error e => rw [hloop] at hok; exact absurd hok (by simp [Except.map])
      | ok ps =>
        rw [hloop] at hok
        simp only [Except.map, Except.ok.injEq] at hok
        split at hok
        · rename_i hp
          by_contra hne
          cases ht : pyDecimalTup v with
          | none => exact hne ht
          | some t =>
            have := numLoop_pos hv ht hloop
            omega
        · exact absurd hok (by simp)
    · intro hall
      unfold infer_numeric_metadata
      rw [numLoop_allNone 0 0 hall]
      rfl

/-- C9 counterexample: on the single token `"0.05"` the produced metadata
has precision 1 but scale 2 (and `max_integer_digits = -1`), refuting the
claimed invariant `scale ≤ precision`. -/
theorem infer_numeric_metadata_scale_gt_precision :
    infer_numeric_metadata ["0.05"] = .ok (some ⟨1, 2, -1, true⟩)
      ∧ ¬ ((2 : Nat) ≤ 1) := by decide

/-- C9 witness: the amended theorem applied at the samples `["0.5"]` and
`["abc"]`. -/
theorem infer_numeric_metadata_spec_witness :
    (1 ≤ (⟨1, 1, 0, true⟩ : NumericMetadata).precision ∧
      (⟨1, 1, 0, true⟩ : NumericMetadata).max_integer_digits =
        ((⟨1, 1, 0, true⟩ : NumericMetadata).precision : Int) -
          ((⟨1, 1, 0, true⟩ : NumericMetadata).scale : Int) ∧
      (⟨1, 1, 0, true⟩ : NumericMetadata).signed = true)
    ∧ infer_numeric_metadata ["abc"] = .ok none :=
  ⟨(infer_numeric_metadata_spec ["0.5"]).1 ⟨1, 1, 0, true⟩ (by decide),
   (infer_numeric_metadata_spec ["abc"]).2.mpr (by decide)⟩

/-- C8: for a registered entity whose diff report contains a breaking
change, STRICT enforcement raises carrying the full breaking-change list
and leaves the registry state (and hence the persisted store) untouched. -/
theorem enforce_strict_rejects (st : RegistryState) (entity : String)
    (report : DiffReport) (sch : List MappedColumn) (now : Nat)
    (hreg : (alookup st entity).isSome = true)
    (hbreak : report.breaking_changes ≠ []) :
    DriftPolicyEnforcer.enforce .STRICT st entity report sch now
      = (st, .error (.breakingChanges report.breaking_changes)) := by
  unfold DriftPolicyEnforcer.enforce
  cases h : alookup st entity with
  | none => rw [h] at hreg; simp at hreg
  | some ed =>
    have hnotboth : ¬ (report.breaking_changes = [] ∧
        report.non_breaking_changes = []) := fun hb => hbreak hb.1
    simp only [if_neg hnotboth, if_pos hbreak]

/-- C8 witness: the theorem applied to a one-entity registry and a report
with a single breaking change. -/
theorem enforce_strict_rejects_witness :
    DriftPolicyEnforcer.enforce .STRICT [("orders", ⟨"orders", 1, []⟩)]
      "orders" ⟨[], [], [], [.removeColumn "email"], []⟩ [] 7
    = ([("orders", ⟨"orders", 1, []⟩)],
        .error (.breakingChanges [.removeColumn "email"])) :=
  enforce_strict_rejects _ _ _ _ _ (by decide) (by decide)

/-- C4: resubmitting a schema whose structural hash equals the current
version's stored hash is a no-op for both `register_new_version` and
`update_current_version_schema` (unchanged state, unchanged version id);
in particular the second of two identical calls never performs a
transition. -/
theorem registry_idempotent (st : RegistryState) (entity : String) :
    (∀ (sch : List MappedColumn) ed cur,
      alookup st entity = some ed →
      alookup ed.versions ed.current_version = some cur →
      compute_schema_hash sch = cur.schema_hash →
      ∀ b summ t summ2 t2,
        register_new_version st entity sch b summ t
          = .ok (st, ed.current_version) ∧
        update_current_version_schema st entity sch summ2 t2
          = .ok (st, ed.current_version))
    ∧ (∀ (sch : List MappedColumn) b summ t st1 v1 b2 summ2 t2,
        register_new_version st entity sch b summ t = .ok (st1, v1) →
        register_new_version st1 entity sch b2 summ2 t2 = .ok (st1, v1))
    ∧ (∀ (sch : List MappedColumn) summ t st1 v1 summ2 t2,
        update_current_version_schema st entity sch summ t = .ok (st1, v1) →
        update_current_version_schema st1 entity sch summ2 t2
          = .ok (st1, v1)) := by
  refine ⟨?_, ?_, ?_⟩
  · intro sch ed cur hed hcur hh b summ t summ2 t2
    constructor
    · unfold register_new_version
      simp only [hed, hcur, if_pos hh]
    · unfold update_current_version_schema
      simp only [hed, hcur, if_pos hh]
  · intro sch b summ t st1 v1 b2 summ2 t2 h
    unfold register_new_version at h ⊢
    cases hed : alookup st entity with
    | none =>
      simp only [hed] at h
      exact Except.noConfusion h
    | some ed =>
      simp only [hed] at h
      cases hcur : alookup ed.versions ed.current_version with
      | none =>
        simp only [hcur] at h
        exact Except.noConfusion h
      | some cur =>
        simp only [hcur] at h
        by_cases hh : compute_schema_hash sch = cur.schema_hash
        · rw [if_pos hh] at h
          simp only [Except.ok.injEq, Prod.mk.injEq] at h
          obtain ⟨h1, h2⟩ := h
          subst h1; subst h2
          simp only [hed, hcur, if_pos hh]
        · rw [if_neg hh] at h
          simp only [Except.ok.injEq, Prod.mk.injEq] at h
          obtain ⟨h1, h2⟩ := h
          subst h1; subst h2
          simp [alookup_pyInsert_self]
  · intro sch summ t st1 v1 summ2 t2 h
    unfold update_current_version_schema at h ⊢
    cases hed : alookup st entity with
    | none =>
      simp only [hed] at h
      exact Except.noConfusion h
    | some ed =>
      simp only [hed] at h
      cases hcur : alookup ed.versions ed.current_version with
      | none =>
        simp only [hcur] at h
        exact Except.noConfusion h
      | some cur =>
        simp only [hcur] at h
        by_cases hh : compute_schema_hash sch = cur.schema_hash
        · rw [if_pos hh] at h
          simp only [Except.ok.injEq, Prod.mk.injEq] at h
          obtain ⟨h1, h2⟩ := h
          subst h1; subst h2
          simp only [hed, hcur, if_pos hh]
        · rw [if_neg hh] at h
          simp only [Except.ok.injEq, Prod.mk.injEq] at h
          obtain ⟨h1, h2⟩ := h
          subst h1; subst h2
          simp [alookup_pyInsert_self]

/-- C4 witness: the theorem applied to a one-entity registry — the no-op
resubmission and the second-call idempotence at concrete inputs. -/
theorem registry_idempotent_witness :
    (register_new_version
        [("e", ⟨"e", 1, [(1, ⟨1, "e_v1", [], 0, 0, false, [], []⟩)]⟩)]
        "e" [] false [] 5
      = .ok ([("e", ⟨"e", 1, [(1, ⟨1, "e_v1", [], 0, 0, false, [], []⟩)]⟩)], 1)
     ∧ update_current_version_schema
        [("e", ⟨"e", 1, [(1, ⟨1, "e_v1", [], 0, 0, false, [], []⟩)]⟩)]
        "e" [] [] 6
      = .ok ([("e", ⟨"e", 1, [(1, ⟨1, "e_v1", [], 0, 0, false, [], []⟩)]⟩)], 1))
    ∧ register_new_version
        [("e", ⟨"e", 2, [(1, ⟨1, "e_v1", [], 0, 0, false, [], []⟩),
                         (2, ⟨2, "e_v2", [⟨"b", "INTEGER", "NULLABLE"⟩], 1, 1,
                              true, [], [⟨"b", "INTEGER", none, none⟩]⟩)]⟩)]
        "e" [⟨"b", "INTEGER", none, none⟩] false [] 9
      = .ok ([("e", ⟨"e", 2, [(1, ⟨1, "e_v1", [], 0, 0, false, [], []⟩),
                              (2, ⟨2, "e_v2", [⟨"b", "INTEGER", "NULLABLE"⟩], 1,
                                   1, true, [], [⟨"b", "INTEGER", none, none⟩]⟩)]⟩)],
              2) :=
  ⟨(registry_idempotent
      [("e", ⟨"e", 1, [(1, ⟨1, "e_v1", [], 0, 0, false, [], []⟩)]⟩)] "e").1
      [] ⟨"e", 1, [(1, ⟨1, "e_v1", [], 0, 0, false, [], []⟩)]⟩
      ⟨1, "e_v1", [], 0, 0, false, [], []⟩
      (by decide) (by decide) (by decide) false [] 5 [] 6,
   (registry_idempotent
      [("e", ⟨"e", 1, [(1, ⟨1, "e_v1", [], 0, 0, false, [], []⟩)]⟩)] "e").2.1
      [⟨"b", "INTEGER", none, none⟩] true [] 1 _ _ false [] 9 (by decide)⟩

/-- C2 (amended): the registry only refuses a new version when the hash
equals the *current* version's hash, so when `register_new_version`
creates a version, the new record's hash differs from its immediate
predecessor's hash at creation time; pairs of non-adjacent versions may
still share a hash. -/
theorem register_new_version_fresh_hash_differs (st : RegistryState)
    (entity : String) (sch : List MappedColumn) (b : Bool)
    (summ : List SummaryItem) (t : Nat) (ed : EntityData)
    (cur : VersionRecord) (hed : alookup st entity = some ed)
    (hcur : alookup ed.versions ed.current_version = some cur)
    (hh : compute_schema_hash sch ≠ cur.schema_hash) :
    ∃ st2, register_new_version st entity sch b summ t
        = .ok (st2, ed.current_version + 1) ∧
      ∃ ed2, alookup st2 entity = some ed2 ∧
        ed2.current_version = ed.current_version + 1 ∧
        ∃ newR oldR,
          alookup ed2.versions (ed.current_version + 1) = some newR ∧
          alookup ed2.versions ed.current_version = some oldR ∧
          newR.schema_hash ≠ oldR.schema_hash := by
  unfold register_new_version
  simp only [hed, hcur, if_neg hh]
  refine ⟨_, rfl, _, alookup_pyInsert_self _ _ _, rfl, ?_⟩
  dsimp only
  exact ⟨_, cur, alookup_pyInsert_self _ _ _,
    by rw [alookup_pyInsert_ne _ _ _ _
        (by omega : ed.current_version ≠ ed.current_version + 1)]
       exact hcur, hh⟩

/-- C2 counterexample: after `register_new_entity` with schema A,
`register_new_version` with schema B, and `register_new_version` with
schema A again, the stored versions `v1` and `v3` of the same entity are
distinct yet share their `schema_hash` — the registry only compares
against the current version's hash. -/
theorem registry_hash_not_globally_distinct :
    ((alookup c2st "orders").map (·.current_version) = some 3)
    ∧ ((alookup c2st "orders").bind fun ed =>
        (alookup ed.versions 1).map (·.schema_hash)) = some (compute_schema_hash c2schA)
    ∧ ((alookup c2st "orders").bind fun ed =>
        (alookup ed.versions 3).map (·.schema_hash)) = some (compute_schema_hash c2schA)
    ∧ ((alookup c2st "orders").map (·.versions.length) = some 3) := by decide

/-- C2 witness: the amended theorem applied to a registry holding one
entity with an empty-schema current version and a fresh non-empty schema. -/
theorem register_new_version_fresh_hash_differs_witness :
    ∃ st2, register_new_version
        [("e", ⟨"e", 1, [(1, ⟨1, "e_v1", [], 0, 0, false, [], []⟩)]⟩)]
        "e" [⟨"b", "INTEGER", none, none⟩] false [] 4
        = .ok (st2, 1 + 1) ∧
      ∃ ed2, alookup st2 "e" = some ed2 ∧
        ed2.current_version = 1 + 1 ∧
        ∃ newR oldR,
          alookup ed2.versions (1 + 1) = some newR ∧
          alookup ed2.versions 1 = some oldR ∧
          newR.schema_hash ≠ oldR.schema_hash :=
  register_new_version_fresh_hash_differs _ _ _ _ _ _
    ⟨"e", 1, [(1, ⟨1, "e_v1", [], 0, 0, false, [], []⟩)]⟩
    ⟨1, "e_v1", [], 0, 0, false, [], []⟩
    (by decide) (by decide) (by decide)

/-! ## String-order lemmas for the structural hash (C3) -/

theorem strLeB_total (a b : List Char) : strLeB a b = true ∨ strLeB b a = true := by
  induction a generalizing b with
  | nil => exact Or.inl rfl
  | cons x xs ih =>
    cases b with
    | nil => exact Or.inr rfl
    | cons y ys =>
      by_cases h1 : x < y
      · exact Or.inl (by simp [strLeB, h1])
      · by_cases h2 : y < x
        · exact Or.inr (by simp [strLeB, h2, h1])
        · rcases ih ys with h3 | h3
          · exact Or.inl (by simp [strLeB, h1, h2, h3])
          · exact Or.inr (by simp [strLeB, h1, h2, h3])

theorem strLeB_antisymm {a b : List Char} (h1 : strLeB a b = true)
    (h2 : strLeB b a = true) : a = b := by
  induction a generalizing b with
  | nil =>
    cases b with
    | nil => rfl
    | cons y ys => simp [strLeB] at h2
  | cons x xs ih =>
    cases b with
    | nil => simp [strLeB] at h1
    | cons y ys =>
      by_cases hxy : x < y
      · simp [strLeB, hxy, asymm hxy] at h2
      · by_cases hyx : y < x
        · simp [strLeB, hxy, hyx] at h1
        · have hxy2 : x = y := le_antisymm (not_lt.mp hyx) (not_lt.mp hxy)
          subst hxy2
          simp only [strLeB, if_neg hxy, if_neg hyx] at h1 h2
          rw [ih h1 h2]

theorem strLeB_trans {a b c : List Char} (h1 : strLeB a b = true)
    (h2 : strLeB b c = true) : strLeB a c = true := by
  induction a generalizing b c with
  | nil => rfl
  | cons x xs ih =>
    cases b with
    | nil => simp [strLeB] at h1
    | cons y ys =>
      cases c with
      | nil => simp [strLeB] at h2
      | cons z zs =>
        by_cases hxy : x < y
        · by_cases hyz : y < z
          · simp [strLeB, lt_trans hxy hyz]
          · by_cases hzy : z < y
            · simp [strLeB, hyz, hzy] at h2
            · have : y = z := le_antisymm (not_lt.mp hzy) (not_lt.mp hyz)
              subst this
              simp [strLeB, hxy]
        · by_cases hyx : y < x
          · simp [strLeB, hxy, hyx] at h1
          · have hxy2 : x = y := le_antisymm (not_lt.mp hyx) (not_lt.mp hxy)
            subst hxy2
            simp only [strLeB, if_neg hxy, if_neg hyx] at h1
            by_cases hxz : x < z
            · simp [strLeB, hxz]
            · by_cases hzx : z < x
              · simp [strLeB, hxz, hzx] at h2
              · have : x = z := le_antisymm (not_lt.mp hzx) (not_lt.mp hxz)
                subst this
                simp only [strLeB, if_neg hxz, if_neg hzx] at h2 ⊢
                exact ih h1 h2

instance : IsTotal NormCol nameLe :=
  ⟨fun a b => strLeB_total a.name.data b.name.data⟩

instance : IsTrans NormCol nameLe :=
  ⟨fun _ _ _ => strLeB_trans⟩

/-- The strict companion order used to make sorted outputs unique when
names are distinct. -/
def nameLt (a b : NormCol) : Prop := nameLe a b ∧ a.name ≠ b.name

instance : IsAntisymm NormCol nameLt :=
  ⟨fun _ _ h1 h2 =>
    absurd (String.ext (strLeB_antisymm h1.1 h2.1)) h1.2⟩

/-- C3 (amended): the structural hash ignores descriptions; it is
invariant under permutations provided column names are pairwise distinct
(the stable sort keeps duplicate-name columns in input order, so
duplicate-name reorderings are observable); and equal hashes force equal
`{name, type, mode}` multisets, so projections that differ as multisets
give different hashes. -/
theorem compute_schema_hash_spec (s1 s2 : List MappedColumn) :
    (List.Forall₂
        (fun a b => a.name = b.name ∧ a.type = b.type ∧ a.mode = b.mode)
        s1 s2 →
      compute_schema_hash s1 = compute_schema_hash s2)
    ∧ (s1.Perm s2 → (s1.map (·.name)).Nodup →
        compute_schema_hash s1 = compute_schema_hash s2)
    ∧ (compute_schema_hash s1 = compute_schema_hash s2 →
        (s1.map toNormCol).Perm (s2.map toNormCol)) := by
  refine ⟨?_, ?_, ?_⟩
  · intro h
    have : s1.map toNormCol = s2.map toNormCol := by
      induction h with
      | nil => rfl
      | cons ha _ ih =>
        simp only [List.map_cons, ih, List.cons.injEq, and_true]
        obtain ⟨h1, h2, h3⟩ := ha
        simp [toNormCol, h1, h2, h3]
    unfold compute_schema_hash normalize_schema_for_hash
    rw [this]
  · intro hperm hnd
    have hpm : (s1.map toNormCol).Perm (s2.map toNormCol) := hperm.map _
    have hs1 : List.Sorted nameLe (List.insertionSort nameLe (s1.map toNormCol)) :=
      List.sorted_insertionSort nameLe _
    have hs2 : List.Sorted nameLe (List.insertionSort nameLe (s2.map toNormCol)) :=
      List.sorted_insertionSort nameLe _
    have hnames1 : ((s1.map toNormCol).map NormCol.name).Nodup := by
      rw [List.map_map]
      exact hnd
    have hnames2 : ((List.insertionSort nameLe (s1.map toNormCol)).map
        NormCol.name).Nodup :=
      (((List.perm_insertionSort nameLe (s1.map toNormCol)).map
        NormCol.name).nodup_iff).mpr hnames1
    have hnames3 : ((List.insertionSort nameLe (s2.map toNormCol)).map
        NormCol.name).Nodup := by
      refine (((List.perm_insertionSort nameLe (s2.map toNormCol)).map
        NormCol.name).nodup_iff).mpr ?_
      rw [List.map_map]
      exact ((hperm.map (fun f => f.name)).nodup_iff).mp hnd
    have hchain : (List.insertionSort nameLe (s1.map toNormCol)).Perm
        (List.insertionSort nameLe (s2.map toNormCol)) :=
      ((List.perm_insertionSort nameLe _).trans hpm).trans
        (List.perm_insertionSort nameLe _).symm
    have hst1 : List.Sorted nameLt (List.insertionSort nameLe (s1.map toNormCol)) :=
      hs1.and (List.pairwise_map.mp hnames2)
    have hst2 : List.Sorted nameLt (List.insertionSort nameLe (s2.map toNormCol)) :=
      hs2.and (List.pairwise_map.mp hnames3)
    exact List.eq_of_perm_of_sorted hchain hst1 hst2
  · intro h
    have h1 : (s1.map toNormCol).Perm (compute_schema_hash s1) :=
      (List.perm_insertionSort nameLe _).symm
    have h2 : (compute_schema_hash s2).Perm (s2.map toNormCol) :=
      List.perm_insertionSort nameLe _
    exact (h1.trans (h ▸ h2))

/-- C3 counterexample: two duplicate-name columns reordered — a
permutation of the column list — produce different hashes, because the
stable name sort preserves their relative order. -/
theorem compute_schema_hash_not_perm_invariant :
    ([⟨"a", "INTEGER", none, none⟩, ⟨"a", "STRING", none, none⟩]
        : List MappedColumn).Perm
      [⟨"a", "STRING", none, none⟩, ⟨"a", "INTEGER", none, none⟩]
    ∧ compute_schema_hash
        [⟨"a", "INTEGER", none, none⟩, ⟨"a", "STRING", none, none⟩]
      ≠ compute_schema_hash
        [⟨"a", "STRING", none, none⟩, ⟨"a", "INTEGER", none, none⟩] :=
  ⟨List.Perm.swap _ _ _, by decide⟩

/-- C3 witness: description-only invariance, permutation invariance on
distinct names, and multiset recovery, each at concrete schemas. -/
theorem compute_schema_hash_spec_witness :
    (compute_schema_hash [⟨"a", "INTEGER", none, some "x"⟩]
      = compute_schema_hash [⟨"a", "INTEGER", none, none⟩])
    ∧ (compute_schema_hash
        [⟨"a", "INTEGER", none, none⟩, ⟨"b", "STRING", none, none⟩]
      = compute_schema_hash
        [⟨"b", "STRING", none, none⟩, ⟨"a", "INTEGER", none, none⟩])
    ∧ (([⟨"a", "INTEGER", none, none⟩] : List MappedColumn).map toNormCol).Perm
        ([⟨"a", "INTEGER", none, some "y"⟩].map toNormCol) :=
  ⟨(compute_schema_hash_spec _ _).1
    (List.forall₂_cons.mpr ⟨⟨rfl, rfl, rfl⟩, List.Forall₂.nil⟩),
   (compute_schema_hash_spec _ _).2.1 (List.Perm.swap _ _ _) (by decide),
   (compute_schema_hash_spec _ _).2.2 (by decide)⟩

/-- C6: a non-empty sample whose surviving tokens are all `"0"`/`"1"` infers
INTEGER and is flagged as an ambiguous boolean; a sample whose surviving
tokens are exactly `{"true", "false"}` infers BOOLEAN and is not flagged. -/
theorem infer_type_boolean_ambiguity (values : List String) :
    (values.filter (fun v => !decide (v ∈ nullMarkers)) ≠ [] →
      (∀ v ∈ values.filter (fun v => !decide (v ∈ nullMarkers)),
        v = "0" ∨ v = "1") →
      infer_type values = .ok "INTEGER" ∧ is_ambiguous_boolean values = true)
    ∧ ((∀ v ∈ values.filter (fun v => !decide (v ∈ nullMarkers)),
        v = "true" ∨ v = "false") →
      "true" ∈ values → "false" ∈ values →
      infer_type values = .ok "BOOLEAN" ∧
        is_ambiguous_boolean values = false) := by
  constructor
  · intro hF hall
    have hvne : values ≠ [] := by
      intro h
      subst h
      simp at hF
    have hvs : ∀ w ∈ normalizedTokens values, w = "0" ∨ w = "1" := by
      intro w hw
      obtain ⟨v, hv, rfl⟩ := List.mem_map.mp hw
      rcases hall v hv with h | h <;> subst h
      · exact Or.inl (by decide)
      · exact Or.inr (by decide)
    have hvsne : normalizedTokens values ≠ [] := by
      unfold normalizedTokens
      intro h
      exact hF (List.map_eq_nil_iff.mp h)
    constructor
    · simp only [infer_type]
      rw [if_neg hvne, if_neg hvsne, if_pos, if_pos]
      · exact List.all_eq_true.mpr (fun w hw => by
          rcases hvs w hw with h | h <;> subst h <;> decide)
      · exact List.all_eq_true.mpr (fun w hw => by
          rcases hvs w hw with h | h <;> subst h <;> decide)
    · unfold is_ambiguous_boolean
      have hne : values.filter (fun v => !decide (v ∈ nullMarkers)) ≠ [] := hF
      rw [if_neg, List.all_eq_true]
      · intro w hw
        obtain ⟨v, hv, rfl⟩ := List.mem_map.mp hw
        rcases hall v hv with h | h <;> subst h <;> decide
      · intro h
        exact hne (List.map_eq_nil_iff.mp h)
  · intro hall htrue hfalse
    have hvne : values ≠ [] := fun h => by subst h; simp at htrue
    have htrueF : "true" ∈ values.filter (fun v => !decide (v ∈ nullMarkers)) :=
      List.mem_filter.mpr ⟨htrue, by decide⟩
    have htruevs : "true" ∈ normalizedTokens values := by
      unfold normalizedTokens
      exact List.mem_map.mpr ⟨"true", htrueF, by decide⟩
    have hvs : ∀ w ∈ normalizedTokens values, w = "true" ∨ w = "false" := by
      intro w hw
      obtain ⟨v, hv, rfl⟩ := List.mem_map.mp hw
      rcases hall v hv with h | h <;> subst h
      · exact Or.inl (by decide)
      · exact Or.inr (by decide)
    have hvsne : normalizedTokens values ≠ [] := fun h => by
      rw [h] at htruevs; simp at htruevs
    constructor
    · simp only [infer_type]
      rw [if_neg hvne, if_neg hvsne, if_pos, if_neg]
      · intro hsub
        have := List.all_eq_true.mp hsub "true" htruevs
        exact absurd (of_decide_eq_true this) (by decide)
      · exact List.all_eq_true.mpr (fun w hw => by
          rcases hvs w hw with h | h <;> subst h <;> decide)
    · unfold is_ambiguous_boolean
      have hlow : "true" ∈ (values.filter (fun v => !decide (v ∈ nullMarkers))).map
          (fun v => pyLower (pyStrip v)) :=
        List.mem_map.mpr ⟨"true", htrueF, by decide⟩
      by_cases hn : (values.filter (fun v => !decide (v ∈ nullMarkers))).map
          (fun v => pyLower (pyStrip v)) = []
      · rw [if_pos hn]
      · rw [if_neg hn]
        refine List.all_eq_false.mpr ⟨"true", hlow, by decide⟩

/-- C6 witness: the theorem applied to `["0", "1", "NULL"]` and
`["true", "false"]`. -/
theorem infer_type_boolean_ambiguity_witness :
    (infer_type ["0", "1", "NULL"] = .ok "INTEGER"
      ∧ is_ambiguous_boolean ["0", "1", "NULL"] = true)
    ∧ (infer_type ["true", "false"] = .ok "BOOLEAN"
      ∧ is_ambiguous_boolean ["true", "false"] = false) :=
  ⟨(infer_type_boolean_ambiguity ["0", "1", "NULL"]).1 (by decide) (by decide),
   (infer_type_boolean_ambiguity ["true", "false"]).2 (by decide) (by decide)
     (by decide)⟩

/-! ## Naming lemmas (C10, C7) -/

theorem collapseU_false_ne_nil (c : Char) (cs : List Char) :
    collapseU false (c :: cs) ≠ [] := by
  unfold collapseU
  by_cases h : c = '_' <;> simp [h]

theorem normalize_identifier_none_iff (s : String) :
    normalize_identifier s = none ↔ pyStripL s.data = [] := by
  unfold normalize_identifier
  constructor
  · intro h
    cases hcs : pyStripL s.data with
    | nil => rfl
    | cons c cs =>
      rw [hcs] at h
      simp only [List.map_cons] at h
      exfalso
      rcases hcol : collapseU false
          (((c :: cs).map Char.toLower).map
            (fun c => if allowedIdentC c then c else '_')) with _ | ⟨d, ds⟩
      · exact collapseU_false_ne_nil _ _ (by simpa using hcol)
      · rw [List.map_cons, List.map_cons] at hcol
        rw [hcol] at h
        by_cases hdig : d.isDigit <;> simp [hdig] at h
  · intro h
    rw [h]
    rfl

theorem colLoop_none_of_bad (isReserved : String → Bool) (tn : String)
    (fs : List CField) (f : CField) (hf : f ∈ fs)
    (hbad : normalize_identifier f.name = none) :
    ∀ seen mapping, colLoop isReserved tn seen mapping fs = none := by
  induction fs with
  | nil => simp at hf
  | cons g rest ih =>
    intro seen mapping
    rcases List.mem_cons.mp hf with h | h
    · subst h
      unfold colLoop
      rw [hbad]
    · unfold colLoop
      cases hg : normalize_identifier g.name with
      | none => rfl
      | some n0 =>
        simp only
        rw [ih h _ _]

theorem tableLoop_none_of_bad (isReserved : String → Bool) (domain layer : String)
    (ts : List CTable) (t : CTable) (f : CField) (ht : t ∈ ts)
    (hf : f ∈ t.fields) (hbad : normalize_identifier f.name = none) :
    ∀ renT renC, tableLoop isReserved domain layer renT renC ts = none := by
  induction ts with
  | nil => simp at ht
  | cons u rest ih =>
    intro renT renC
    rcases List.mem_cons.mp ht with h | h
    · subst h
      unfold tableLoop
      cases htn : build_table_name domain t.name layer with
      | none => rfl
      | some tn =>
        simp only
        rw [colLoop_none_of_bad isReserved tn t.fields f hf hbad]
    · unfold tableLoop
      cases htn : build_table_name domain u.name layer with
      | none => rfl
      | some tn =>
        simp only
        cases hcl : colLoop isReserved tn [] [] u.fields with
        | none => rfl
        | some r =>
          simp only
          rw [ih h _ _]

/-- C10 (amended): `normalize_identifier` hits the uncaught `IndexError`
exactly when the raw name strips to the empty string, and
`apply_naming_normalization` propagates it for any such *column* name
(a whitespace-only *table* name is concatenated into
`domain_entity_layer` before normalization and does not raise). -/
theorem normalize_identifier_empty_raises (s : String) :
    (normalize_identifier s = none ↔ pyStripL s.data = []) ∧
    (∀ (isReserved : String → Bool) (schema : CanonicalSchemaN)
        (d e z l : String),
      schema.dataset.domain = some d → schema.dataset.environment = some e →
      schema.dataset.zone = some z → schema.dataset.layer = some l →
      d ≠ "" → e ≠ "" → z ≠ "" → l ≠ "" →
      ∀ t ∈ schema.tables, ∀ f ∈ t.fields, pyStripL f.name.data = [] →
      apply_naming_normalization isReserved schema = .error .indexError) := by
  refine ⟨normalize_identifier_none_iff s, ?_⟩
  intro isReserved schema d e z l hd he hz hl hd2 he2 hz2 hl2 t ht f hf hws
  unfold apply_naming_normalization
  simp only [hd, he, hz, hl]
  rw [if_pos ⟨hd2, he2, hz2, hl2⟩]
  cases hdn : build_dataset_name d e z with
  | none => rfl
  | some dn =>
    simp only
    rw [tableLoop_none_of_bad isReserved d l schema.tables t f ht hf
      ((normalize_identifier_none_iff f.name).mpr hws)]

/-- C10 counterexample: a whitespace-only *table* name does not raise —
it is concatenated into `{domain}_{entity}_{layer}` before normalization,
so `apply_naming_normalization` succeeds, contrary to the claim's
extension to table names. -/
theorem apply_naming_whitespace_table_ok :
    pyStripL "   ".data = []
    ∧ (apply_naming_normalization (fun _ => false)
        { dataset := ⟨some "sales", some "dev", some "raw", some "bronze", none⟩,
          tables := [⟨"   ", [⟨"x"⟩]⟩],
          rename_tables := [], rename_columns := [] }).isOk = true := by decide

/-- C10 witness: the theorem applied at the raw name `" "` and at a schema
holding a whitespace-only column name. -/
theorem normalize_identifier_empty_raises_witness :
    (normalize_identifier " " = none ↔ pyStripL " ".data = [])
    ∧ apply_naming_normalization (fun _ => false)
        { dataset := ⟨some "s", some "d", some "r", some "b", none⟩,
          tables := [⟨"T", [⟨" "⟩]⟩],
          rename_tables := [], rename_columns := [] }
      = .error .indexError :=
  ⟨(normalize_identifier_empty_raises " ").1,
   (normalize_identifier_empty_raises " ").2 (fun _ => false)
     { dataset := ⟨some "s", some "d", some "r", some "b", none⟩,
       tables := [⟨"T", [⟨" "⟩]⟩],
       rename_tables := [], rename_columns := [] }
     "s" "d" "r" "b" rfl rfl rfl rfl (by decide) (by decide) (by decide)
     (by decide) ⟨"T", [⟨" "⟩]⟩ (by decide) ⟨" "⟩ (by decide) (by decide)⟩

/-! ## Naive-timestamp lemmas (C1) -/

theorem expectC_mem {c : Char} {cs r : List Char} (h : expectC c cs = some r) :
    c ∈ cs ∧ ∀ x ∈ r, x ∈ cs := by
  cases cs with
  | nil => simp [expectC] at h
  | cons y ys =>
    simp only [expectC] at h
    split at h
    · rename_i hy
      simp only [Option.some.injEq] at h
      subst h
      subst hy
      exact ⟨List.mem_cons_self _ _, fun x hx => List.mem_cons_of_mem _ hx⟩
    · simp at h

theorem pYear_mem {cs : List Char} {p : Nat × List Char}
    (h : pYear cs = some p) : ∀ x ∈ p.2, x ∈ cs := by
  rcases cs with _ | ⟨a, _ | ⟨b, _ | ⟨c, _ | ⟨d, rest⟩⟩⟩⟩ <;>
    simp only [pYear] at h
  · exact absurd h (by simp)
  · exact absurd h (by simp)
  · exact absurd h (by simp)
  · exact absurd h (by simp)
  · split at h
    · simp only [Option.some.injEq] at h
      subst h
      intro x hx
      simp [hx]
    · exact absurd h (by simp)

theorem pTwoOne_mem {cs : List Char} {p : Nat × List Char}
    (hshape : ∀ (a b : Char) (rest : List Char), cs = a :: b :: rest →
      p.2 = rest ∨ p.2 = b :: rest)
    (hone : ∀ a : Char, cs = [a] → p.2 = [])
    (hnil : cs = [] → False) : ∀ x ∈ p.2, x ∈ cs := by
  rcases cs with _ | ⟨a, _ | ⟨b, rest⟩⟩
  · exact absurd rfl hnil
  · rw [hone a rfl]
    simp
  · rcases hshape a b rest rfl with h | h <;> rw [h]
    · intro x hx
      simp [hx]
    · intro x hx
      simp [List.mem_cons.mp hx]

theorem pMonth_mem {cs : List Char} {p : Nat × List Char}
    (h : pMonth cs = some p) : ∀ x ∈ p.2, x ∈ cs := by
  refine pTwoOne_mem ?_ ?_ ?_
  · intro a b rest hcs
    subst hcs
    simp only [pMonth] at h
    split at h
    · exact Or.inl (by simp only [Option.some.injEq] at h; rw [← h])
    · split at h
      · exact Or.inl (by simp only [Option.some.injEq] at h; rw [← h])
      · split at h
        · exact Or.inr (by simp only [Option.some.injEq] at h; rw [← h])
        · exact absurd h (by simp)
  · intro a hcs
    subst hcs
    simp only [pMonth] at h
    split at h
    · simp only [Option.some.injEq] at h; rw [← h]
    · exact absurd h (by simp)
  · intro hcs
    subst hcs
    simp [pMonth] at h

theorem pDay_mem {cs : List Char} {p : Nat × List Char}
    (h : pDay cs = some p) : ∀ x ∈ p.2, x ∈ cs := by
  refine pTwoOne_mem ?_ ?_ ?_
  · intro a b rest hcs
    subst hcs
    simp only [pDay] at h
    split at h
    · exact Or.inl (by simp only [Option.some.injEq] at h; rw [← h])
    · split at h
      · exact Or.inl (by simp only [Option.some.injEq] at h; rw [← h])
      · split at h
        · exact Or.inl (by simp only [Option.some.injEq] at h; rw [← h])
        · split at h
          · exact Or.inr (by simp only [Option.some.injEq] at h; rw [← h])
          · exact absurd h (by simp)
  · intro a hcs
    subst hcs
    simp only [pDay] at h
    split at h
    · simp only [Option.some.injEq] at h; rw [← h]
    · exact absurd h (by simp)
  · intro hcs
    subst hcs
    simp [pDay] at h

theorem pHour_mem {cs : List Char} {p : Nat × List Char}
    (h : pHour cs = some p) : ∀ x ∈ p.2, x ∈ cs := by
  refine pTwoOne_mem ?_ ?_ ?_
  · intro a b rest hcs
    subst hcs
    simp only [pHour] at h
    split at h
    · exact Or.inl (by simp only [Option.some.injEq] at h; rw [← h])
    · split at h
      · exact Or.inl (by simp only [Option.some.injEq] at h; rw [← h])
      · split at h
        · exact Or.inr (by simp only [Option.some.injEq] at h; rw [← h])
        · exact absurd h (by simp)
  · intro a hcs
    subst hcs
    simp only [pHour] at h
    split at h
    · simp only [Option.some.injEq] at h; rw [← h]
    · exact absurd h (by simp)
  · intro hcs
    subst hcs
    simp [pHour] at h

theorem pMinSec_mem {cs : List Char} {p : Nat × List Char}
    (h : pMinSec cs = some p) : ∀ x ∈ p.2, x ∈ cs := by
  refine pTwoOne_mem ?_ ?_ ?_
  · intro a b rest hcs
    subst hcs
    simp only [pMinSec] at h
    split at h
    · exact Or.inl (by simp only [Option.some.injEq] at h; rw [← h])
    · split at h
      · exact Or.inr (by simp only [Option.some.injEq] at h; rw [← h])
      · exact absurd h (by simp)
  · intro a hcs
    subst hcs
    simp only [pMinSec] at h
    split at h
    · simp only [Option.some.injEq] at h; rw [← h]
    · exact absurd h (by simp)
  · intro hcs
    subst hcs
    simp [pMinSec] at h

theorem mem_of_mem_dropWhile {p : Char → Bool} {x : Char} :
    ∀ {l : List Char}, x ∈ l.dropWhile p → x ∈ l := by
  intro l
  induction l with
  | nil => simp
  | cons c cs ih =>
    intro h
    rw [List.dropWhile_cons] at h
    split at h
    · exact List.mem_cons_of_mem _ (ih h)
    · exact h

theorem pWsRun_mem {cs r : List Char} (h : pWsRun cs = some r) :
    ∀ x ∈ r, x ∈ cs := by
  cases cs with
  | nil => simp [pWsRun] at h
  | cons c ys =>
    simp only [pWsRun] at h
    split at h
    · simp only [Option.some.injEq] at h
      subst h
      intro x hx
      exact List.mem_cons_of_mem _ (mem_of_mem_dropWhile hx)
    · simp at h

theorem parseNaive_colon {tSep : Bool} {cs : List Char}
    {r : Nat × Nat × Nat} (h : parseNaive tSep cs = some r) : ':' ∈ cs := by
  unfold parseNaive at h
  simp only [Option.bind_eq_some] at h
  obtain ⟨yr, hyr, r2, hr2, mo, hmo, r4, hr4, dy, hdy, r6, hr6, hh, hhh, r8,
    hr8, mi, hmi, r10, hr10, ss, hss, hfin⟩ := h
  have h8 : ':' ∈ hh.2 := (expectC_mem hr8).1
  have h6 : ':' ∈ r6 := pHour_mem hhh _ h8
  have h5 : ':' ∈ dy.2 := by
    cases tSep with
    | true => exact (expectC_mem (by simpa using hr6)).2 _ h6
    | false => exact pWsRun_mem (by simpa using hr6) _ h6
  have h4 : ':' ∈ r4 := pDay_mem hdy _ h5
  have h3 : ':' ∈ mo.2 := (expectC_mem hr4).2 _ h4
  have h2 : ':' ∈ r2 := pMonth_mem hmo _ h3
  have h1 : ':' ∈ yr.2 := (expectC_mem hr2).2 _ h2
  exact pYear_mem hyr _ h1

theorem naive_has_colon {v : String} (h : _is_naive_timestamp v = true) :
    ':' ∈ pyStripL v.data := by
  simp only [_is_naive_timestamp] at h
  rcases h1 : parseNaive false (pyStripL v.data) with _ | r1
  · rw [h1] at h
    rcases h2 : parseNaive true (pyStripL v.data) with _ | r2
    · rw [h2] at h
      simp at h
    · exact parseNaive_colon h2
  · exact parseNaive_colon h1

theorem mem_pyStripL {x : Char} {l : List Char} (hx : x ∈ l)
    (hws : isPyWsC x = false) : x ∈ pyStripL l := by
  unfold pyStripL
  rw [List.mem_reverse]
  have step : ∀ {m : List Char}, x ∈ m → x ∈ m.dropWhile isPyWsC := by
    intro m
    induction m with
    | nil => simp
    | cons c cs ih =>
      intro hm
      rw [List.dropWhile_cons]
      rcases List.mem_cons.mp hm with h | h
      · subst h
        rw [hws]
        simp only [Bool.false_eq_true, if_false]
        exact List.mem_cons_self _ _
      · split
        · exact ih h
        · exact List.mem_cons_of_mem _ h
  exact step (by rw [List.mem_reverse]; exact step hx)

theorem dropSign_mem {x : Char} {cs : List Char} (hx : x ∈ cs)
    (h1 : x ≠ '+') (h2 : x ≠ '-') : x ∈ dropSign cs := by
  cases cs with
  | nil => simp at hx
  | cons c rest =>
    simp only [dropSign]
    split
    · rename_i hc
      rcases List.mem_cons.mp hx with h | h
      · subst h
        rcases Bool.or_eq_true_iff.mp hc with h3 | h3
        · exact absurd (of_decide_eq_true h3) h1
        · exact absurd (of_decide_eq_true h3) h2
      · exact h
    · exact hx

theorem digitsUAfter_chars : ∀ {cs : List Char}, digitsUAfter cs = true →
    ∀ x ∈ cs, x.isDigit = true ∨ x = '_'
  | [], _, x, hx => by simp at hx
  | [c], h, x, hx => by
    simp only [digitsUAfter] at h
    split at h
    · simp at h
    · rcases List.mem_cons.mp hx with h2 | h2
      · exact Or.inl (h2 ▸ h)
      · simp at h2
  | c :: c2 :: rest, h, x, hx => by
    simp only [digitsUAfter] at h
    split at h
    · rename_i hc
      simp only [Bool.and_eq_true] at h
      rcases List.mem_cons.mp hx with h2 | h2
      · exact Or.inr (h2.trans hc)
      · rcases List.mem_cons.mp h2 with h3 | h3
        · exact Or.inl (h3 ▸ h.1)
        · exact digitsUAfter_chars h.2 x h3
    · simp only [Bool.and_eq_true] at h
      rcases List.mem_cons.mp hx with h2 | h2
      · exact Or.inl (h2 ▸ h.1)
      · exact digitsUAfter_chars h.2 x h2

theorem digitsU_chars {cs : List Char} (h : digitsU cs = true) :
    ∀ x ∈ cs, x.isDigit = true ∨ x = '_' := by
  cases cs with
  | nil => simp
  | cons c rest =>
    simp only [digitsU, Bool.and_eq_true] at h
    intro x hx
    rcases List.mem_cons.mp hx with h2 | h2
    · exact Or.inl (h2 ▸ h.1)
    · exact digitsUAfter_chars h.2 x h2

theorem colon_not_integer {v : String} (h : ':' ∈ pyStripL v.data) :
    _is_integer v = false := by
  unfold _is_integer pyIntOk
  by_contra hne
  have hi : digitsU (dropSign (pyStripL (pyStrip v).data)) = true :=
    Bool.not_eq_false _ ▸ (by simpa using hne)
  have hmem : ':' ∈ pyStripL (pyStrip v).data := by
    show ':' ∈ pyStripL (pyStripL v.data)
    exact mem_pyStripL h (by decide)
  have hmem2 : ':' ∈ dropSign (pyStripL (pyStrip v).data) :=
    dropSign_mem hmem (by decide) (by decide)
  rcases digitsU_chars hi _ hmem2 with h2 | h2 <;> simp at h2

theorem decAfterInt_chars {cs : List Char} (h : decAfterInt cs = true) :
    ∀ x ∈ cs, x.isDigit = true ∨ x = '.' := by
  induction cs with
  | nil => simp
  | cons c rest ih =>
    simp only [decAfterInt] at h
    intro x hx
    split at h
    · rename_i hc
      rcases List.mem_cons.mp hx with h2 | h2
      · exact Or.inl (h2 ▸ hc)
      · exact ih h x h2
    · simp only [Bool.and_eq_true] at h
      rcases List.mem_cons.mp hx with h2 | h2
      · exact Or.inr (h2.trans (by simpa using h.1))
      · cases rest with
        | nil => simp at h2
        | cons c2 rest2 =>
          simp only [digitsPlain, Bool.and_eq_true] at h
          rcases List.mem_cons.mp h2 with h3 | h3
          · exact Or.inl (h3 ▸ h.2.1)
          · exact Or.inl (List.all_eq_true.mp h.2.2 x h3)

theorem colon_not_decimal {v : String} (h : ':' ∈ pyStripL v.data) :
    _is_decimal v = false := by
  unfold _is_decimal
  by_contra hne
  have hd : decBody (dropSign (pyStripL (pyStrip v).data)) = true :=
    Bool.not_eq_false _ ▸ (by simpa using hne)
  have hmem : ':' ∈ pyStripL (pyStrip v).data := by
    show ':' ∈ pyStripL (pyStripL v.data)
    exact mem_pyStripL h (by decide)
  have hmem2 : ':' ∈ dropSign (pyStripL (pyStrip v).data) :=
    dropSign_mem hmem (by decide) (by decide)
  rcases hcs : dropSign (pyStripL (pyStrip v).data) with _ | ⟨c, rest⟩
  · rw [hcs] at hmem2; simp at hmem2
  · rw [hcs] at hd hmem2
    simp only [decBody, Bool.and_eq_true] at hd
    rcases List.mem_cons.mp hmem2 with h2 | h2
    · rw [← h2] at hd
      simp at hd
    · rcases decAfterInt_chars hd.2 _ h2 with h3 | h3 <;> simp at h3

theorem colon_not_boolean {v : String} (h : ':' ∈ pyStripL v.data) :
    _is_boolean v = false := by
  unfold _is_boolean
  by_contra hne
  have hb : pyLower (pyStrip v) ∈ boolTokens :=
    of_decide_eq_true (Bool.not_eq_false _ ▸ (by simpa using hne))
  have hcolon : ':' ∈ (pyLower (pyStrip v)).data := by
    show ':' ∈ (pyStripL v.data).map Char.toLower
    exact List.mem_map.mpr ⟨':', h, by decide⟩
  simp only [boolTokens, List.mem_cons] at hb
  rcases hb with h2|h2|h2|h2|h2|h2|h2|h2|h2|h2|h2
  all_goals first
  | (rw [h2] at hcolon; exact absurd hcolon (by decide))
  | simp at h2

theorem digitsU_no_colon {cs : List Char} (h : digitsU cs = true) :
    ':' ∉ cs := by
  intro hmem
  rcases digitsU_chars h _ hmem with h2 | h2 <;> simp at h2

theorem floatExp_no_colon {cs : List Char} (h : floatExp cs = true) :
    ':' ∉ cs := by
  intro hmem
  exact digitsU_no_colon h (dropSign_mem hmem (by decide) (by decide))

theorem digitsUThenExp_no_colon : ∀ {cs : List Char},
    digitsUThenExp cs = true → ':' ∉ cs
  | [], _, hmem => by simp at hmem
  | [c], h, hmem => by
    simp only [digitsUThenExp] at h
    rcases (by simpa using hmem : ':' = c) with rfl
    simp at h
  | c :: c2 :: rest, h, hmem => by
    simp only [digitsUThenExp] at h
    split at h
    · rename_i hc
      simp only [Bool.and_eq_true] at h
      rcases List.mem_cons.mp hmem with h2 | h2
      · exact absurd (h2.trans hc) (by decide)
      · rcases List.mem_cons.mp h2 with h3 | h3
        · rw [← h3] at h
          simp at h
        · exact digitsUThenExp_no_colon h.2 h3
    · split at h
      · rename_i hc
        rcases List.mem_cons.mp hmem with h2 | h2
        · rcases Bool.or_eq_true_iff.mp hc with h3 | h3 <;>
            rw [← h2] at h3 <;> simp at h3
        · exact floatExp_no_colon h h2
      · simp only [Bool.and_eq_true] at h
        rcases List.mem_cons.mp hmem with h2 | h2
        · rw [← h2] at h
          simp at h
        · exact digitsUThenExp_no_colon h.2 h2

theorem fracDigitsExp_no_colon {cs : List Char}
    (h : fracDigitsExp cs = true) : ':' ∉ cs := by
  cases cs with
  | nil => simp
  | cons c rest =>
    simp only [fracDigitsExp, Bool.and_eq_true] at h
    intro hmem
    rcases List.mem_cons.mp hmem with h2 | h2
    · rw [← h2] at h
      simp at h
    · exact digitsUThenExp_no_colon h.2 h2

theorem floatDotTail_no_colon {cs : List Char}
    (h : floatDotTail cs = true) : ':' ∉ cs := by
  cases cs with
  | nil => simp
  | cons c rest =>
    simp only [floatDotTail] at h
    split at h
    · rename_i hc
      intro hmem
      rcases List.mem_cons.mp hmem with h2 | h2
      · rcases Bool.or_eq_true_iff.mp hc with h3 | h3 <;>
          rw [← h2] at h3 <;> simp at h3
      · exact floatExp_no_colon h h2
    · exact fracDigitsExp_no_colon h

theorem floatIntTail_no_colon : ∀ {cs : List Char},
    floatIntTail cs = true → ':' ∉ cs
  | [], _, hmem => by simp at hmem
  | [c], h, hmem => by
    simp only [floatIntTail] at h
    rcases (by simpa using hmem : ':' = c) with rfl
    simp at h
  | c :: c2 :: rest, h, hmem => by
    simp only [floatIntTail] at h
    split at h
    · rename_i hc
      simp only [Bool.and_eq_true] at h
      rcases List.mem_cons.mp hmem with h2 | h2
      · exact absurd (h2.trans hc) (by decide)
      · rcases List.mem_cons.mp h2 with h3 | h3
        · rw [← h3] at h
          simp at h
        · exact floatIntTail_no_colon h.2 h3
    · split at h
      · rename_i hc
        rcases List.mem_cons.mp hmem with h2 | h2
        · exact absurd (h2.trans hc) (by decide)
        · exact floatDotTail_no_colon h h2
      · split at h
        · rename_i hc
          rcases List.mem_cons.mp hmem with h2 | h2
          · rcases Bool.or_eq_true_iff.mp hc with h3 | h3 <;>
              rw [← h2] at h3 <;> simp at h3
          · exact floatExp_no_colon h h2
        · simp only [Bool.and_eq_true] at h
          rcases List.mem_cons.mp hmem with h2 | h2
          · rw [← h2] at h
            simp at h
          · exact floatIntTail_no_colon h.2 h2

theorem floatBody_no_colon {cs : List Char} (h : floatBody cs = true) :
    ':' ∉ cs := by
  cases cs with
  | nil => simp
  | cons c rest =>
    simp only [floatBody] at h
    split at h
    · rename_i hc
      intro hmem
      rcases List.mem_cons.mp hmem with h2 | h2
      · exact absurd (h2.trans hc) (by decide)
      · exact fracDigitsExp_no_colon h h2
    · simp only [Bool.and_eq_true] at h
      intro hmem
      rcases List.mem_cons.mp hmem with h2 | h2
      · rw [← h2] at h
        simp at h
      · exact floatIntTail_no_colon h.2 h2

theorem colon_not_float {v : String} (h : ':' ∈ pyStripL v.data) :
    _is_float v = false := by
  unfold _is_float pyFloatOk
  by_contra hne
  have hmem : ':' ∈ pyStripL (pyStrip v).data := by
    show ':' ∈ pyStripL (pyStripL v.data)
    exact mem_pyStripL h (by decide)
  have hmem2 : ':' ∈ dropSign (pyStripL (pyStrip v).data) :=
    dropSign_mem hmem (by decide) (by decide)
  have hf : (let cs := dropSign (pyStripL (pyStrip v).data)
      let low := cs.map Char.toLower
      if low = "inf".data || low = "infinity".data || low = "nan".data then true
      else floatBody cs) = true := Bool.not_eq_false _ ▸ (by simpa using hne)
  simp only at hf
  split at hf
  · rename_i hword
    have hlow : ':' ∈ (dropSign (pyStripL (pyStrip v).data)).map Char.toLower :=
      List.mem_map.mpr ⟨':', hmem2, by decide⟩
    rcases Bool.or_eq_true_iff.mp hword with h3 | h3
    · rcases Bool.or_eq_true_iff.mp h3 with h4 | h4 <;>
        rw [of_decide_eq_true h4] at hlow <;> exact absurd hlow (by decide)
    · rw [of_decide_eq_true h3] at hlow
      exact absurd hlow (by decide)
  · exact floatBody_no_colon hf hmem2

theorem naive_not_earlier {v : String} (h : _is_naive_timestamp v = true) :
    _is_boolean v = false ∧ _is_integer v = false ∧ _is_decimal v = false ∧
      _is_float v = false :=
  ⟨colon_not_boolean (naive_has_colon h), colon_not_integer (naive_has_colon h),
   colon_not_decimal (naive_has_colon h), colon_not_float (naive_has_colon h)⟩

set_option maxHeartbeats 2000000 in
theorem infer_type_error_shape {values : List String}
    {e : NaiveTimestampError} (h : infer_type values = .error e) :
    (normalizedTokens values).any _is_naive_timestamp = true ∧
    e = ⟨((normalizedTokens values).filter _is_naive_timestamp).take 3,
         decide (3 < ((normalizedTokens values).filter
           _is_naive_timestamp).length)⟩ := by
  simp only [infer_type] at h
  split_ifs at h <;>
    first
    | exact Except.noConfusion h
    | (refine ⟨by assumption, ?_⟩
       injection h with h2
       exact h2.symm)

/-- C1: `infer_type` fails exactly on samples containing a naive-timestamp
token (after null-marker filtering and stripping); the raised error lists
at most three offending examples, all of which are naive timestamps, and
such a sample never yields the TIMESTAMP tag. -/
theorem infer_type_naive_timestamp (values : List String) :
    ((∃ e, infer_type values = .error e) ↔
      ∃ v ∈ normalizedTokens values, _is_naive_timestamp v = true)
    ∧ (∀ e, infer_type values = .error e →
        e.examples ≠ [] ∧ e.examples.length ≤ 3 ∧
        (∀ x ∈ e.examples, _is_naive_timestamp x = true) ∧
        infer_type values ≠ .ok "TIMESTAMP") := by
  have hshape := @infer_type_error_shape values
  constructor
  · constructor
    · rintro ⟨e, he⟩
      obtain ⟨hany, -⟩ := hshape he
      exact List.any_eq_true.mp hany
    · rintro ⟨v, hv, hnaive⟩
      obtain ⟨hb, hi, hd, hf⟩ := naive_not_earlier hnaive
      have hvne : values ≠ [] := by
        intro hveq
        subst hveq
        simp [normalizedTokens] at hv
      have hvsne : normalizedTokens values ≠ [] := by
        intro hveq
        rw [hveq] at hv
        simp at hv
      refine ⟨⟨((normalizedTokens values).filter _is_naive_timestamp).take 3,
        decide (3 < ((normalizedTokens values).filter
          _is_naive_timestamp).length)⟩, ?_⟩
      simp only [infer_type]
      rw [if_neg hvne, if_neg hvsne,
        if_neg (by rw [List.all_eq_false.mpr ⟨v, hv, by simp [hb]⟩]; simp),
        if_neg (by rw [List.all_eq_false.mpr ⟨v, hv, by simp [hi]⟩]; simp),
        if_neg (by rw [List.all_eq_false.mpr ⟨v, hv, by simp [hd]⟩]; simp),
        if_neg (by rw [List.all_eq_false.mpr ⟨v, hv, by simp [hf]⟩]; simp),
        if_pos (List.any_eq_true.mpr ⟨v, hv, hnaive⟩)]
  · intro e he
    obtain ⟨hany, hsh⟩ := hshape he
    obtain ⟨v, hv, hnaive⟩ := List.any_eq_true.mp hany
    have hvfil : v ∈ (normalizedTokens values).filter _is_naive_timestamp :=
      List.mem_filter.mpr ⟨hv, hnaive⟩
    refine ⟨?_, ?_, ?_, ?_⟩
    · rw [hsh]
      intro hnil
      simp only at hnil
      rcases List.take_eq_nil_iff.mp hnil with h3 | h3
      · simp at h3
      · rw [h3] at hvfil
        simp at hvfil
    · rw [hsh]
      exact List.length_take_le _ _
    · intro x hx
      rw [hsh] at hx
      simp only at hx
      exact (List.mem_filter.mp (List.take_subset _ _ hx)).2
    · rw [he]
      simp

/-- C1 witness: the theorem applied to a sample holding one naive
timestamp and one plain string. -/
theorem infer_type_naive_timestamp_witness :
    (∃ e, infer_type ["2024-01-01 10:00:00", "x"] = .error e)
    ∧ ((⟨["2024-01-01 10:00:00"], false⟩ : NaiveTimestampError).examples ≠ []
      ∧ (⟨["2024-01-01 10:00:00"], false⟩ :
          NaiveTimestampError).examples.length ≤ 3
      ∧ (∀ x ∈ (⟨["2024-01-01 10:00:00"], false⟩ :
          NaiveTimestampError).examples, _is_naive_timestamp x = true)
      ∧ infer_type ["2024-01-01 10:00:00", "x"] ≠ .ok "TIMESTAMP") :=
  ⟨(infer_type_naive_timestamp ["2024-01-01 10:00:00", "x"]).1.mpr (by decide),
   (infer_type_naive_timestamp ["2024-01-01 10:00:00", "x"]).2
     ⟨["2024-01-01 10:00:00"], false⟩ (by decide)⟩

/-! ## Deduplication lemmas (C7) -/

theorem d2v_digitChar {n : Nat} (h : n < 10) : d2v (Nat.digitChar n) = n := by
  interval_cases n <;> decide

theorem digitChar_isDigit {n : Nat} (h : n < 10) :
    (Nat.digitChar n).isDigit = true := by
  interval_cases n <;> decide

theorem natReprAux_spec : ∀ (fuel n : Nat), n < fuel →
    natReprAux fuel n ≠ [] ∧ (∀ c ∈ natReprAux fuel n, c.isDigit = true) ∧
    (natReprAux fuel n).foldl (fun a c => a * 10 + d2v c) 0 = n := by
  intro fuel
  induction fuel with
  | zero => intro n h; omega
  | succ f ih =>
    intro n h
    by_cases h10 : n < 10
    · refine ⟨by simp [natReprAux, h10], ?_, ?_⟩
      · intro c hc
        simp only [natReprAux, if_pos h10] at hc
        simp only [List.mem_singleton] at hc
        exact hc ▸ digitChar_isDigit h10
      · simp [natReprAux, if_pos h10, d2v_digitChar h10]
    · have hdiv : n / 10 < f := by
        have h1 : n / 10 < n := Nat.div_lt_self (by omega) (by omega)
        omega
      obtain ⟨ihne, ihdig, ihval⟩ := ih (n / 10) hdiv
      refine ⟨by simp [natReprAux, h10], ?_, ?_⟩
      · intro c hc
        simp only [natReprAux, if_neg h10] at hc
        rcases List.mem_append.mp hc with h2 | h2
        · exact ihdig c h2
        · simp only [List.mem_singleton] at h2
          exact h2 ▸ digitChar_isDigit (Nat.mod_lt _ (by omega))
      · simp only [natReprAux, if_neg h10, List.foldl_append, ihval,
          List.foldl_cons, List.foldl_nil, d2v_digitChar (Nat.mod_lt n (by omega : 0 < 10))]
        omega

theorem natRepr_ne_nil (n : Nat) : (natRepr n).data ≠ [] :=
  (natReprAux_spec (n + 1) n (by omega)).1

theorem natRepr_digits (n : Nat) : ∀ c ∈ (natRepr n).data, c.isDigit = true :=
  (natReprAux_spec (n + 1) n (by omega)).2.1

theorem natRepr_inj {m n : Nat} (h : natRepr m = natRepr n) : m = n := by
  have hm := (natReprAux_spec (m + 1) m (by omega)).2.2
  have hn := (natReprAux_spec (n + 1) n (by omega)).2.2
  have hdata : natReprAux (m + 1) m = natReprAux (n + 1) n :=
    congrArg String.data h
  rw [← hm, ← hn, hdata]

theorem takeWhile_append_all {p : Char → Bool} {as : List Char}
    (h : ∀ c ∈ as, p c = true) (bs : List Char) :
    (as ++ bs).takeWhile p = as ++ bs.takeWhile p := by
  induction as with
  | nil => simp
  | cons c cs ih =>
    rw [List.cons_append, List.takeWhile_cons, h c (by simp),
      ih (fun x hx => h x (by simp [hx]))]
    simp

theorem dropWhile_append_all {p : Char → Bool} {as : List Char}
    (h : ∀ c ∈ as, p c = true) (bs : List Char) :
    (as ++ bs).dropWhile p = bs.dropWhile p := by
  induction as with
  | nil => simp
  | cons c cs ih =>
    rw [List.cons_append, List.dropWhile_cons, h c (by simp),
      ih (fun x hx => h x (by simp [hx]))]
    simp

theorem hasNumSuffix_append {xs ds : List Char} (hne : ds ≠ [])
    (hdig : ∀ c ∈ ds, c.isDigit = true) :
    hasNumSuffix ⟨xs ++ '_' :: ds⟩ = true := by
  unfold hasNumSuffix
  simp only [List.reverse_append, List.reverse_cons]
  have hrev : ∀ c ∈ ds.reverse, c.isDigit = true := by
    intro c hc
    exact hdig c (List.mem_reverse.mp hc)
  have heq1 : (ds.reverse ++ ('_' :: xs.reverse)).takeWhile Char.isDigit
      = ds.reverse ++ ('_' :: xs.reverse).takeWhile Char.isDigit :=
    takeWhile_append_all hrev _
  have heq2 : (ds.reverse ++ ('_' :: xs.reverse)).dropWhile Char.isDigit
      = ('_' :: xs.reverse).dropWhile Char.isDigit :=
    dropWhile_append_all hrev _
  rw [show ds.reverse ++ ['_'] ++ xs.reverse
      = ds.reverse ++ ('_' :: xs.reverse) by simp, heq1, heq2]
  rw [List.takeWhile_cons, List.dropWhile_cons]
  simp only [show ('_' : Char).isDigit = false by decide]
  simp [hne]

theorem append_uds_inj : ∀ {as bs ds es : List Char},
    (∀ c ∈ ds, c.isDigit = true) → (∀ c ∈ es, c.isDigit = true) →
    as ++ '_' :: ds = bs ++ '_' :: es → as = bs ∧ ds = es := by
  intro as
  induction as with
  | nil =>
    intro bs ds es hds hes h
    cases bs with
    | nil =>
      simp only [List.nil_append, List.cons.injEq] at h
      exact ⟨rfl, h.2⟩
    | cons b bs2 =>
      simp only [List.nil_append, List.cons_append, List.cons.injEq] at h
      exfalso
      have : '_' ∈ ds := by
        rw [h.2]
        simp
      have := hds _ this
      simp at this
  | cons a as2 ih =>
    intro bs ds es hds hes h
    cases bs with
    | nil =>
      simp only [List.cons_append, List.nil_append, List.cons.injEq] at h
      exfalso
      have : '_' ∈ es := by
        rw [← h.2]
        simp
      have := hes _ this
      simp at this
    | cons b bs2 =>
      simp only [List.cons_append, List.cons.injEq] at h
      obtain ⟨rfl, h2⟩ := h
      obtain ⟨h3, h4⟩ := ih hds hes h2
      exact ⟨by rw [h3], h4⟩

theorem mkDedup_one (k : String) : mkDedup k 1 = k := by
  unfold mkDedup
  rw [if_pos rfl]

theorem mkDedup_data {k : String} {n : Nat} (h : 2 ≤ n) :
    (mkDedup k n).data = k.data ++ '_' :: (natRepr n).data := by
  unfold mkDedup
  rw [if_neg (by omega)]
  show (k ++ "_" ++ natRepr n).data = _
  rw [String.data_append, String.data_append]
  simp

theorem hasNumSuffix_mkDedup {k : String} {n : Nat} (h : 2 ≤ n) :
    hasNumSuffix (mkDedup k n) = true := by
  have hd := mkDedup_data (k := k) h
  have : mkDedup k n = ⟨k.data ++ '_' :: (natRepr n).data⟩ := String.ext hd
  rw [this]
  exact hasNumSuffix_append (natRepr_ne_nil n) (natRepr_digits n)

theorem mkDedup_inj {k1 k2 : String} {n1 n2 : Nat}
    (h1 : hasNumSuffix k1 = false) (h2 : hasNumSuffix k2 = false)
    (hn1 : 1 ≤ n1) (hn2 : 1 ≤ n2)
    (he : mkDedup k1 n1 = mkDedup k2 n2) : k1 = k2 ∧ n1 = n2 := by
  by_cases e1 : n1 = 1 <;> by_cases e2 : n2 = 1
  · subst e1; subst e2
    rw [mkDedup_one, mkDedup_one] at he
    exact ⟨he, rfl⟩
  · exfalso
    subst e1
    rw [mkDedup_one] at he
    rw [he] at h1
    rw [hasNumSuffix_mkDedup (by omega)] at h1
    simp at h1
  · exfalso
    subst e2
    rw [mkDedup_one] at he
    rw [← he] at h2
    rw [hasNumSuffix_mkDedup (by omega)] at h2
    simp at h2
  · have hd : k1.data ++ '_' :: (natRepr n1).data
        = k2.data ++ '_' :: (natRepr n2).data := by
      rw [← mkDedup_data (by omega : 2 ≤ n1), ← mkDedup_data (by omega : 2 ≤ n2), he]
    obtain ⟨ha, hb⟩ := append_uds_inj (natRepr_digits n1) (natRepr_digits n2) hd
    exact ⟨String.ext ha, natRepr_inj (String.ext hb)⟩

theorem mem_dedupWith : ∀ {ks d : List String} {x : String},
    x ∈ dedupWith d ks → ∃ k ∈ ks, ∃ m, d.count k + 1 ≤ m ∧ x = mkDedup k m := by
  intro ks
  induction ks with
  | nil => intro d x hx; simp [dedupWith] at hx
  | cons k rest ih =>
    intro d x hx
    simp only [dedupWith] at hx
    rcases List.mem_cons.mp hx with h | h
    · exact ⟨k, by simp, d.count k + 1, le_refl _, h⟩
    · obtain ⟨k', hk', m, hm, hxeq⟩ := ih h
      refine ⟨k', by simp [hk'], m, ?_, hxeq⟩
      have : d.count k' ≤ (d ++ [k]).count k' := by
        rw [List.count_append]
        omega
      omega

theorem nodup_dedupWith : ∀ {ks : List String},
    (∀ k ∈ ks, hasNumSuffix k = false) → ∀ d, (dedupWith d ks).Nodup := by
  intro ks
  induction ks with
  | nil => intro _ d; simp [dedupWith]
  | cons k rest ih =>
    intro hsuf d
    simp only [dedupWith, List.nodup_cons]
    refine ⟨?_, ih (fun k' h => hsuf k' (by simp [h])) _⟩
    intro hmem
    obtain ⟨k', hk', m, hm, hxeq⟩ := mem_dedupWith hmem
    obtain ⟨hkk, hnm⟩ := mkDedup_inj (hsuf k (by simp))
      (hsuf k' (by simp [hk'])) (by omega) (by omega) hxeq
    subst hkk
    rw [List.count_append] at hm
    have : (List.count k [k]) = 1 := by simp
    omega

theorem colLoop_names (isReserved : String → Bool) (tn : String) :
    ∀ (fs : List CField) (seen : List (String × Nat))
      (mapping : List (String × String)) (done : List String)
      (out : List (String × Nat) × List (String × String) × List CField),
    (∀ k, (alookup seen k).getD 0 = done.count k) →
    colLoop isReserved tn seen mapping fs = some out →
    ∃ ks, fs.mapM (fun f => colKey isReserved tn f.name) = some ks ∧
      out.2.2.map CField.name = dedupWith done ks := by
  intro fs
  induction fs with
  | nil =>
    intro seen mapping done out hinv h
    simp only [colLoop, Option.some.injEq] at h
    subst h
    exact ⟨[], rfl, by simp [dedupWith]⟩
  | cons f rest ih =>
    intro seen mapping done out hinv h
    simp only [colLoop] at h
    cases hn : normalize_identifier f.name with
    | none =>
      rw [hn] at h
      exact absurd h (by simp)
    | some n0 =>
      rw [hn] at h
      simp only at h
      cases hc : colLoop isReserved tn
          (pyInsert (if isReserved n0 then tn ++ "_" ++ n0 else n0)
            ((alookup seen (if isReserved n0 then tn ++ "_" ++ n0 else n0)).getD 0 + 1)
            seen)
          (pyInsert f.name
            (if ((alookup seen (if isReserved n0 then tn ++ "_" ++ n0 else n0)).getD 0 + 1) = 1
             then (if isReserved n0 then tn ++ "_" ++ n0 else n0)
             else (if isReserved n0 then tn ++ "_" ++ n0 else n0) ++ "_" ++
               natRepr ((alookup seen (if isReserved n0 then tn ++ "_" ++ n0 else n0)).getD 0 + 1))
            mapping)
          rest with
      | none =>
        rw [hc] at h
        exact absurd h (by simp)
      | some r =>
        rw [hc] at h
        simp only [Option.some.injEq] at h
        subst h
        have hinv2 : ∀ k,
            (alookup (pyInsert (if isReserved n0 then tn ++ "_" ++ n0 else n0)
              ((alookup seen (if isReserved n0 then tn ++ "_" ++ n0 else n0)).getD 0 + 1)
              seen) k).getD 0
            = (done ++ [if isReserved n0 then tn ++ "_" ++ n0 else n0]).count k := by
          intro k
          by_cases hk : k = (if isReserved n0 then tn ++ "_" ++ n0 else n0)
          · subst hk
            rw [alookup_pyInsert_self, hinv _, List.count_append]
            simp
          · rw [alookup_pyInsert_ne
                (if isReserved n0 then tn ++ "_" ++ n0 else n0) k
                ((alookup seen
                  (if isReserved n0 then tn ++ "_" ++ n0 else n0)).getD 0 + 1)
                seen hk, hinv k, List.count_append]
            have : List.count k [if isReserved n0 then tn ++ "_" ++ n0 else n0] = 0 := by
              rw [List.count_eq_zero]
              simp [hk]
            omega
        obtain ⟨ks', hks', hns'⟩ := ih _ _ _ r hinv2 hc
        refine ⟨(if isReserved n0 then tn ++ "_" ++ n0 else n0) :: ks', ?_, ?_⟩
        · rw [List.mapM_cons]
          have hck : colKey isReserved tn f.name
              = some (if isReserved n0 then tn ++ "_" ++ n0 else n0) := by
            simp [colKey, hn]
          rw [hck, hks']
          rfl
        · simp only [List.map_cons, hns', dedupWith]
          congr 1
          rw [← hinv]
          rfl

theorem tableLoop_names (isReserved : String → Bool) (d l : String) :
    ∀ (ts : List CTable) (renT : List (String × String))
      (renC : List (String × List (String × String)))
      (out : List (String × String) × List (String × List (String × String))
        × List CTable),
    tableLoop isReserved d l renT renC ts = some out →
    List.Forall₂ (fun t t' =>
      ∃ tn ks, build_table_name d t.name l = some tn ∧ t'.name = tn ∧
        t.fields.mapM (fun f => colKey isReserved tn f.name) = some ks ∧
        t'.fields.map CField.name = dedupWith [] ks)
      ts out.2.2 := by
  intro ts
  induction ts with
  | nil =>
    intro renT renC out h
    simp only [tableLoop, Option.some.injEq] at h
    subst h
    exact List.Forall₂.nil
  | cons t rest ih =>
    intro renT renC out h
    simp only [tableLoop] at h
    cases hb : build_table_name d t.name l with
    | none =>
      rw [hb] at h
      exact absurd h (by simp)
    | some tn =>
      rw [hb] at h
      simp only at h
      cases hc : colLoop isReserved tn [] [] t.fields with
      | none =>
        rw [hc] at h
        exact absurd h (by simp)
      | some r =>
        rw [hc] at h
        simp only at h
        cases ht : tableLoop isReserved d l (pyInsert t.name tn renT)
            (pyInsert tn r.2.1 renC) rest with
        | none =>
          rw [ht] at h
          exact absurd h (by simp)
        | some acc =>
          rw [ht] at h
          simp only [Option.some.injEq] at h
          subst h
          refine List.Forall₂.cons ?_ (ih _ _ _ ht)
          obtain ⟨ks, hks, hns⟩ :=
            colLoop_names isReserved tn t.fields [] [] [] r
              (by intro k; simp [alookup]) hc
          exact ⟨tn, ks, hb, rfl, hks, hns⟩

/-- C7: in `apply_naming_normalization`, each table's final column names are
obtained by normalizing and keyword-resolving each raw field name into a key
and then deduplicating the key list in source order: the first occurrence of
a key keeps the key, the n-th occurrence (n from 2) becomes `key_n`; the
result is a pure function of the input, and the final names of a table are
pairwise distinct whenever no key of that table itself already ends in an
underscore-plus-digits suffix. -/
theorem apply_naming_normalization_dedup (isReserved : String → Bool)
    (schema schema' : CanonicalSchemaN)
    (h : apply_naming_normalization isReserved schema = .ok schema') :
    ∃ d l, schema.dataset.domain = some d ∧ schema.dataset.layer = some l ∧
      List.Forall₂ (fun t t' =>
        ∃ tn ks, build_table_name d t.name l = some tn ∧ t'.name = tn ∧
          t.fields.mapM (fun f => colKey isReserved tn f.name) = some ks ∧
          t'.fields.map CField.name = dedupWith [] ks ∧
          ((∀ k ∈ ks, hasNumSuffix k = false) →
            (t'.fields.map CField.name).Nodup))
        schema.tables schema'.tables := by
  simp only [apply_naming_normalization] at h
  cases hd : schema.dataset.domain with
  | none => rw [hd] at h; exact Except.noConfusion h
  | some d =>
  cases he : schema.dataset.environment with
  | none => rw [hd, he] at h; exact Except.noConfusion h
  | some e =>
  cases hz : schema.dataset.zone with
  | none => rw [hd, he, hz] at h; exact Except.noConfusion h
  | some z =>
  cases hl : schema.dataset.layer with
  | none => rw [hd, he, hz, hl] at h; exact Except.noConfusion h
  | some l =>
  rw [hd, he, hz, hl] at h
  simp only at h
  split at h
  · cases hbd : build_dataset_name d e z with
    | none => rw [hbd] at h; exact Except.noConfusion h
    | some dn =>
      rw [hbd] at h
      simp only at h
      cases htl : tableLoop isReserved d l [] [] schema.tables with
      | none => rw [htl] at h; exact Except.noConfusion h
      | some acc =>
        rw [htl] at h
        simp only [Except.ok.injEq] at h
        subst h
        refine ⟨d, l, rfl, rfl, ?_⟩
        have hF := tableLoop_names isReserved d l schema.tables [] [] acc htl
        refine List.Forall₂.imp ?_ hF
        intro t t' hr
        obtain ⟨tn, ks, h1, h2, h3, h4⟩ := hr
        exact ⟨tn, ks, h1, h2, h3, h4,
          fun hsuf => by rw [h4]; exact nodup_dedupWith hsuf []⟩
  · exact Except.noConfusion h

/-- C7 counterexample: uniqueness of the deduplicated names fails when a raw
name already carries a deduplication-shaped suffix — raw column names
`["id", "id", "id_2"]` come out as `["id", "id_2", "id_2"]`, which contains
a duplicate. -/
theorem apply_naming_dedup_collision :
    (apply_naming_normalization (fun _ => false)
        { dataset := ⟨some "sales", some "dev", some "raw", some "bronze", none⟩,
          tables := [⟨"t", [⟨"id"⟩, ⟨"id"⟩, ⟨"id_2"⟩]⟩],
          rename_tables := [], rename_columns := [] }).toOption.map
      (fun s => s.tables.map (fun t => t.fields.map CField.name))
      = some [["id", "id_2", "id_2"]]
    ∧ ¬ (["id", "id_2", "id_2"] : List String).Nodup := by decide

/-- C7 witness: the deduplication theorem applied to a schema whose one
table has raw column names `["id", "Id", "id"]`; the final names are
`["id", "id_2", "id_3"]`. -/
theorem apply_naming_normalization_dedup_witness :
    ∃ d l,
      (CanonicalSchemaN.mk
        ⟨some "sales", some "dev", some "raw", some "bronze", none⟩
        [⟨"t", [⟨"id"⟩, ⟨"Id"⟩, ⟨"id"⟩]⟩] [] []).dataset.domain = some d ∧
      (CanonicalSchemaN.mk
        ⟨some "sales", some "dev", some "raw", some "bronze", none⟩
        [⟨"t", [⟨"id"⟩, ⟨"Id"⟩, ⟨"id"⟩]⟩] [] []).dataset.layer = some l ∧
      List.Forall₂ (fun t t' =>
        ∃ tn ks, build_table_name d t.name l = some tn ∧ t'.name = tn ∧
          t.fields.mapM (fun f => colKey (fun _ => false) tn f.name)
            = some ks ∧
          t'.fields.map CField.name = dedupWith [] ks ∧
          ((∀ k ∈ ks, hasNumSuffix k = false) →
            (t'.fields.map CField.name).Nodup))
        (CanonicalSchemaN.mk
          ⟨some "sales", some "dev", some "raw", some "bronze", none⟩
          [⟨"t", [⟨"id"⟩, ⟨"Id"⟩, ⟨"id"⟩]⟩] [] []).tables
        (CanonicalSchemaN.mk
          ⟨some "sales", some "dev", some "raw",
            some "bronze", some "sales_dev_raw"⟩
          [⟨"sales_t_bronze", [⟨"id"⟩, ⟨"id_2"⟩, ⟨"id_3"⟩]⟩]
          [("t", "sales_t_bronze")]
          [("sales_t_bronze", [("id", "id_3"), ("Id", "id_2")])]).tables :=
  apply_naming_normalization_dedup (fun _ => false)
    (CanonicalSchemaN.mk
      ⟨some "sales", some "dev", some "raw", some "bronze", none⟩
      [⟨"t", [⟨"id"⟩, ⟨"Id"⟩, ⟨"id"⟩]⟩] [] [])
    (CanonicalSchemaN.mk
      ⟨some "sales", some "dev", some "raw",
        some "bronze", some "sales_dev_raw"⟩
      [⟨"sales_t_bronze", [⟨"id"⟩, ⟨"id_2"⟩, ⟨"id_3"⟩]⟩]
      [("t", "sales_t_bronze")]
      [("sales_t_bronze", [("id", "id_3"), ("Id", "id_2")])])
    (by decide)

theorem lookupCol_name {schema : List MappedColumn} {n : String}
    {f : MappedColumn} (h : lookupCol schema n = some f) : f.name = n :=
  name_eq_key_pyDictBy (mem_of_alookup_eq_some h)

theorem mem_added_iff {old new : List MappedColumn} {f : MappedColumn} :
    f ∈ schemaDiffAdded (pyDictBy (filteredCols old))
        (pyDictBy (filteredCols new)) ↔
      lookupCol new f.name = some f ∧ lookupCol old f.name = none := by
  unfold schemaDiffAdded lookupCol
  constructor
  · intro h
    rw [List.mem_map] at h
    obtain ⟨p, hp, hpf⟩ := h
    rw [List.mem_filter] at hp
    obtain ⟨hmem, hnone⟩ := hp
    have hk := name_eq_key_pyDictBy hmem
    subst hpf
    rw [hk]
    exact ⟨alookup_eq_some_of_mem (nodupKeys_pyDictBy _) hmem,
      Option.isNone_iff_eq_none.mp hnone⟩
  · rintro ⟨h1, h2⟩
    rw [List.mem_map]
    refine ⟨(f.name, f), ?_, rfl⟩
    rw [List.mem_filter]
    exact ⟨mem_of_alookup_eq_some h1, by simp [h2]⟩

theorem mem_removed_iff {old new : List MappedColumn} {f : MappedColumn} :
    f ∈ schemaDiffRemoved (pyDictBy (filteredCols old))
        (pyDictBy (filteredCols new)) ↔
      lookupCol old f.name = some f ∧ lookupCol new f.name = none := by
  unfold schemaDiffRemoved lookupCol
  constructor
  · intro h
    rw [List.mem_map] at h
    obtain ⟨p, hp, hpf⟩ := h
    rw [List.mem_filter] at hp
    obtain ⟨hmem, hnone⟩ := hp
    have hk := name_eq_key_pyDictBy hmem
    subst hpf
    rw [hk]
    exact ⟨alookup_eq_some_of_mem (nodupKeys_pyDictBy _) hmem,
      Option.isNone_iff_eq_none.mp hnone⟩
  · rintro ⟨h1, h2⟩
    rw [List.mem_map]
    refine ⟨(f.name, f), ?_, rfl⟩
    rw [List.mem_filter]
    exact ⟨mem_of_alookup_eq_some h1, by simp [h2]⟩

theorem mem_modified_iff {old new : List MappedColumn} {ch : ModEntry} :
    ch ∈ schemaDiffModified (pyDictBy (filteredCols old))
        (pyDictBy (filteredCols new)) ↔
      lookupCol old ch.column = some ch.old ∧
      lookupCol new ch.column = some ch.new ∧
      _field_changed ch.old ch.new = true ∧ ch.new.name = ch.column := by
  obtain ⟨cn, co, cw⟩ := ch
  unfold schemaDiffModified lookupCol
  rw [List.mem_filterMap]
  constructor
  · rintro ⟨p, hp, hval⟩
    cases ho : alookup (pyDictBy (filteredCols old)) p.1 with
    | none =>
      rw [ho] at hval
      exact absurd hval (by simp)
    | some o =>
      rw [ho] at hval
      simp only at hval
      by_cases hfc : _field_changed o p.2 = true
      · rw [if_pos hfc] at hval
        injection hval with hval
        injection hval with e1 e2 e3
        subst e1; subst e2; subst e3
        have hk := name_eq_key_pyDictBy hp
        exact ⟨ho, alookup_eq_some_of_mem (nodupKeys_pyDictBy _) hp, hfc, hk⟩
      · rw [if_neg hfc] at hval
        exact absurd hval (by simp)
  · rintro ⟨h1, h2, h3, h4⟩
    refine ⟨(cn, cw), mem_of_alookup_eq_some h2, ?_⟩
    show (match alookup (pyDictBy (filteredCols old)) cn with
          | none => none
          | some o =>
            if _field_changed o cw then some (ModEntry.mk cn o cw) else none)
        = some (ModEntry.mk cn co cw)
    rw [h1]
    simp only
    rw [if_pos h3]

theorem mem_tc_filterMap {modified : List ModEntry} {c : ChangeEntry} :
    c ∈ modified.filterMap (fun ch =>
        if ch.old.type ≠ ch.new.type then
          some (ChangeEntry.typeChange ch.new.name ch.old.type ch.new.type)
        else if ch.old.mode = some "NULLABLE" ∧ ch.new.mode = some "REQUIRED"
        then some (ChangeEntry.nullableToRequired ch.new.name)
        else none) ↔
      (∃ ch ∈ modified, ch.old.type ≠ ch.new.type ∧
        c = .typeChange ch.new.name ch.old.type ch.new.type) ∨
      (∃ ch ∈ modified, ch.old.type = ch.new.type ∧
        ch.old.mode = some "NULLABLE" ∧ ch.new.mode = some "REQUIRED" ∧
        c = .nullableToRequired ch.new.name) := by
  rw [List.mem_filterMap]
  constructor
  · rintro ⟨ch, hch, hval⟩
    by_cases ht : ch.old.type = ch.new.type
    · rw [if_neg (not_not_intro ht)] at hval
      by_cases hm : ch.old.mode = some "NULLABLE" ∧ ch.new.mode = some "REQUIRED"
      · rw [if_pos hm] at hval
        injection hval with hval
        exact Or.inr ⟨ch, hch, ht, hm.1, hm.2, hval.symm⟩
      · rw [if_neg hm] at hval
        exact absurd hval (by simp)
    · rw [if_pos ht] at hval
      injection hval with hval
      exact Or.inl ⟨ch, hch, ht, hval.symm⟩
  · rintro (⟨ch, hch, ht, rfl⟩ | ⟨ch, hch, ht, hm1, hm2, rfl⟩)
    · exact ⟨ch, hch, by rw [if_pos ht]⟩
    · exact ⟨ch, hch, by rw [if_neg (not_not_intro ht), if_pos ⟨hm1, hm2⟩]⟩

theorem mem_nb_filterMap {modified : List ModEntry} {c : ChangeEntry} :
    c ∈ modified.filterMap (fun ch =>
        if ch.old.type ≠ ch.new.type then none
        else if ch.old.mode = some "NULLABLE" ∧ ch.new.mode = some "REQUIRED"
        then none
        else some (ChangeEntry.nonBreakingModification ch.new.name)) ↔
      ∃ ch ∈ modified, ch.old.type = ch.new.type ∧
        ¬ (ch.old.mode = some "NULLABLE" ∧ ch.new.mode = some "REQUIRED") ∧
        c = .nonBreakingModification ch.new.name := by
  rw [List.mem_filterMap]
  constructor
  · rintro ⟨ch, hch, hval⟩
    by_cases ht : ch.old.type = ch.new.type
    · rw [if_neg (not_not_intro ht)] at hval
      by_cases hm : ch.old.mode = some "NULLABLE" ∧ ch.new.mode = some "REQUIRED"
      · rw [if_pos hm] at hval
        exact absurd hval (by simp)
      · rw [if_neg hm] at hval
        injection hval with hval
        exact ⟨ch, hch, ht, hm, hval.symm⟩
    · rw [if_pos ht] at hval
      exact absurd hval (by simp)
  · rintro ⟨ch, hch, ht, hm, rfl⟩
    exact ⟨ch, hch, by rw [if_neg (not_not_intro ht), if_neg hm]⟩

/-- C5: after the metadata-column filtering, every entry of the diff's
breaking-change list is exactly one of: a REQUIRED column present only in
new (`addRequiredColumn`), a column present only in old (`removeColumn`), a
column in both with differing type (`typeChange`, recording from/to), or a
column in both with equal type whose mode changes NULLABLE to REQUIRED
(`nullableToRequired`); and every entry of the non-breaking list is either
a non-REQUIRED column present only in new (`addNullableColumn`) or any
other detected modification (`nonBreakingModification`). -/
theorem schema_diff_classification (old new : List MappedColumn)
    (c : ChangeEntry) :
    (c ∈ (SchemaDiff.diff old new).breaking_changes ↔ breakCond old new c) ∧
    (c ∈ (SchemaDiff.diff old new).non_breaking_changes ↔
      nonBreakCond old new c) := by
  have hbr : (SchemaDiff.diff old new).breaking_changes
      = ((schemaDiffAdded (pyDictBy (filteredCols old))
            (pyDictBy (filteredCols new))).filter
          (fun f => decide (f.mode = some "REQUIRED"))).map
          (fun f => ChangeEntry.addRequiredColumn f.name)
        ++ (schemaDiffRemoved (pyDictBy (filteredCols old))
            (pyDictBy (filteredCols new))).map
          (fun f => ChangeEntry.removeColumn f.name)
        ++ (schemaDiffModified (pyDictBy (filteredCols old))
            (pyDictBy (filteredCols new))).filterMap (fun ch =>
            if ch.old.type ≠ ch.new.type then
              some (ChangeEntry.typeChange ch.new.name ch.old.type
                ch.new.type)
            else if ch.old.mode = some "NULLABLE" ∧
                ch.new.mode = some "REQUIRED"
            then some (ChangeEntry.nullableToRequired ch.new.name)
            else none) := rfl
  have hnb : (SchemaDiff.diff old new).non_breaking_changes
      = ((schemaDiffAdded (pyDictBy (filteredCols old))
            (pyDictBy (filteredCols new))).filter
          (fun f => !decide (f.mode = some "REQUIRED"))).map
          (fun f => ChangeEntry.addNullableColumn f.name)
        ++ (schemaDiffModified (pyDictBy (filteredCols old))
            (pyDictBy (filteredCols new))).filterMap (fun ch =>
            if ch.old.type ≠ ch.new.type then none
            else if ch.old.mode = some "NULLABLE" ∧
                ch.new.mode = some "REQUIRED"
            then none
            else some (ChangeEntry.nonBreakingModification ch.new.name))
      := rfl
  constructor
  · rw [hbr, List.mem_append, List.mem_append, mem_tc_filterMap]
    constructor
    · rintro ((h | h) | (⟨ch, hch, ht, rfl⟩ | ⟨ch, hch, ht, hm1, hm2, rfl⟩))
      · rw [List.mem_map] at h
        obtain ⟨a, ha, hac⟩ := h
        rw [List.mem_filter] at ha
        obtain ⟨haa, hmode⟩ := ha
        subst hac
        obtain ⟨h1, h2⟩ := mem_added_iff.mp haa
        exact ⟨a, h1, h2, by simpa using hmode⟩
      · rw [List.mem_map] at h
        obtain ⟨a, ha, hac⟩ := h
        subst hac
        obtain ⟨h1, h2⟩ := mem_removed_iff.mp ha
        exact ⟨a, h1, h2⟩
      · obtain ⟨h1, h2, h3, h4⟩ := mem_modified_iff.mp hch
        rw [show breakCond old new
            (.typeChange ch.new.name ch.old.type ch.new.type)
          = ∃ o f, lookupCol old ch.new.name = some o ∧
              lookupCol new ch.new.name = some f ∧
              o.type = ch.old.type ∧ f.type = ch.new.type ∧
              ch.old.type ≠ ch.new.type from rfl, h4]
        exact ⟨ch.old, ch.new, h1, h2, rfl, rfl, ht⟩
      · obtain ⟨h1, h2, h3, h4⟩ := mem_modified_iff.mp hch
        rw [show breakCond old new (.nullableToRequired ch.new.name)
          = ∃ o f, lookupCol old ch.new.name = some o ∧
              lookupCol new ch.new.name = some f ∧
              o.type = f.type ∧ o.mode = some "NULLABLE" ∧
              f.mode = some "REQUIRED" from rfl, h4]
        exact ⟨ch.old, ch.new, h1, h2, ht, hm1, hm2⟩
    · cases c with
      | addRequiredColumn n =>
        rintro ⟨f, hf1, hf2, hf3⟩
        have hn := lookupCol_name hf1
        refine Or.inl (Or.inl ?_)
        rw [List.mem_map]
        refine ⟨f, ?_, by rw [hn]⟩
        rw [List.mem_filter]
        exact ⟨mem_added_iff.mpr ⟨by rw [hn]; exact hf1, by rw [hn]; exact hf2⟩,
          by simp [hf3]⟩
      | addNullableColumn n => intro h; exact h.elim
      | removeColumn n =>
        rintro ⟨f, hf1, hf2⟩
        have hn := lookupCol_name hf1
        refine Or.inl (Or.inr ?_)
        rw [List.mem_map]
        exact ⟨f, mem_removed_iff.mpr
          ⟨by rw [hn]; exact hf1, by rw [hn]; exact hf2⟩, by rw [hn]⟩
      | typeChange n fr toT =>
        rintro ⟨o, f, h1, h2, h3, h4, h5⟩
        have hn := lookupCol_name h2
        refine Or.inr (Or.inl ⟨ModEntry.mk n o f, mem_modified_iff.mpr
          ⟨h1, h2, ?_, hn⟩, ?_, ?_⟩)
        · simp only [_field_changed, decide_eq_true_eq]
          exact Or.inl (by rw [h3, h4]; exact h5)
        · show o.type ≠ f.type
          rw [h3, h4]; exact h5
        · show ChangeEntry.typeChange n fr toT
            = ChangeEntry.typeChange f.name o.type f.type
          rw [hn, h3, h4]
      | nullableToRequired n =>
        rintro ⟨o, f, h1, h2, h3, h4, h5⟩
        have hn := lookupCol_name h2
        refine Or.inr (Or.inr ⟨ModEntry.mk n o f, mem_modified_iff.mpr
          ⟨h1, h2, ?_, hn⟩, h3, h4, h5, ?_⟩)
        · simp only [_field_changed, decide_eq_true_eq]
          exact Or.inr (Or.inl (by rw [h4, h5]; simp))
        · show ChangeEntry.nullableToRequired n
            = ChangeEntry.nullableToRequired f.name
          rw [hn]
      | nonBreakingModification n => intro h; exact h.elim
  · rw [hnb, List.mem_append, mem_nb_filterMap]
    constructor
    · rintro (h | ⟨ch, hch, ht, hm, rfl⟩)
      · rw [List.mem_map] at h
        obtain ⟨a, ha, hac⟩ := h
        rw [List.mem_filter] at ha
        obtain ⟨haa, hmode⟩ := ha
        subst hac
        obtain ⟨h1, h2⟩ := mem_added_iff.mp haa
        exact ⟨a, h1, h2, by simpa using hmode⟩
      · obtain ⟨h1, h2, h3, h4⟩ := mem_modified_iff.mp hch
        rw [show nonBreakCond old new
            (.nonBreakingModification ch.new.name)
          = ∃ o f, lookupCol old ch.new.name = some o ∧
              lookupCol new ch.new.name = some f ∧
              o.type = f.type ∧
              ¬ (o.mode = some "NULLABLE" ∧ f.mode = some "REQUIRED") ∧
              (o.mode ≠ f.mode ∨ o.description ≠ f.description) from rfl, h4]
        refine ⟨ch.old, ch.new, h1, h2, ht, hm, ?_⟩
        simp only [_field_changed, decide_eq_true_eq] at h3
        rcases h3 with h3 | h3 | h3
        · exact absurd ht h3
        · exact Or.inl h3
        · exact Or.inr h3
    · cases c with
      | addRequiredColumn n => intro h; exact h.elim
      | addNullableColumn n =>
        rintro ⟨f, hf1, hf2, hf3⟩
        have hn := lookupCol_name hf1
        refine Or.inl ?_
        rw [List.mem_map]
        refine ⟨f, ?_, by rw [hn]⟩
        rw [List.mem_filter]
        exact ⟨mem_added_iff.mpr ⟨by rw [hn]; exact hf1, by rw [hn]; exact hf2⟩,
          by simp [hf3]⟩
      | removeColumn n => intro h; exact h.elim
      | typeChange n fr toT => intro h; exact h.elim
      | nullableToRequired n => intro h; exact h.elim
      | nonBreakingModification n =>
        rintro ⟨o, f, h1, h2, h3, h4, h5⟩
        have hn := lookupCol_name h2
        refine Or.inr ⟨ModEntry.mk n o f, mem_modified_iff.mpr
          ⟨h1, h2, ?_, hn⟩, h3, h4, ?_⟩
        · simp only [_field_changed, decide_eq_true_eq]
          rcases h5 with h5 | h5
          · exact Or.inr (Or.inl h5)
          · exact Or.inr (Or.inr h5)
        · show ChangeEntry.nonBreakingModification n
            = ChangeEntry.nonBreakingModification f.name
          rw [hn]
